import Mathlib

/-!
# Pollard's kangaroo solver: a shallow embedding

The development embeds the two renderings of the bounded discrete-log solver,
`pollard_kangaroo` (`pollard_kangroo.c`) and `PollardKangaroo::solve`
(`pollard_kangroo.cpp`), together with their helpers `modexp`, `modexp_cpp` and
`partition`.

Conventions of the embedding.

* `uint64_t` values are natural numbers, `long long` and `int` values are
  integers.  Every place where the C code narrows or may wrap is written out
  with an explicit reduction (`% 2 ^ 64`, `% 2 ^ 128`, `toInt64`, `toInt32`).
* A division or remainder whose divisor is zero, and an array access outside
  the allocated block, have no defined result: the embedding returns a `Fault`.
* The library calls are inputs of the model (`Env`): the values `rand()`
  yields after `srand(time(NULL))`, the value of the floating point expression
  `(long long)(2.0*sqrt((long double)n))` (one value for the C function `sqrt`,
  one for the C++ overload `std::sqrt`), and the unspecified contents of a
  freshly allocated block.
* The floating point expression has an exact integer description where the
  square root is correctly rounded (IEEE 754) and the formats are those of the
  x86-64 System V ABI: `double` has 53 significant bits, `long double` has 64.
  `ieee_env` is the environment with these values; the statements that do not
  depend on the rounding are proved for every environment.
* The storage that survives a call (`KState`) is the pair of table pointers and
  the state of the library generator.
-/

namespace Kangaroo

/-- The ways a run can leave defined behaviour. -/
inductive Fault where
  | div_by_zero
  | out_of_bounds
  deriving DecidableEq, Repr

/-- Conversion of an integer to `uint64_t` (reduction modulo `2 ^ 64`). -/
def toUInt64 (x : Int) : Nat := (x % 2 ^ 64).toNat

/-- Conversion of an integer to `long long` (two's complement wrap). -/
def toInt64 (x : Int) : Int := (x + 2 ^ 63) % 2 ^ 64 - 2 ^ 63

/-- Conversion of an integer to `int` (two's complement wrap). -/
def toInt32 (x : Int) : Int := (x + 2 ^ 31) % 2 ^ 32 - 2 ^ 31

/-- The `while (e > 0)` loop of `modexp` (pollard_kangroo.c, lines 19-27).
The first argument bounds the number of iterations; `e` is a 64-bit value
that is halved in every iteration, so 64 iterations always suffice. -/
def modexp_loop : Nat → Nat → Nat → Nat → Nat → Nat
  | 0, result, _, _, _ => result
  | fuel + 1, result, cur, e, mod =>
    if e > 0 then
      let result1 :=
        if e &&& 1 ≠ 0 then ((result * cur) % 2 ^ 128 % mod) % 2 ^ 64 else result
      let cur1 := ((cur * cur) % 2 ^ 128 % mod) % 2 ^ 64
      modexp_loop fuel result1 cur1 (e >>> 1) mod
    else result

/-- `modexp` of pollard_kangroo.c (lines 13-30). -/
def modexp (base exp mod : Nat) : Except Fault Nat :=
  if mod = 0 then .error .div_by_zero
  else .ok (modexp_loop 64 1 (base % mod) exp mod)

/-- The `while (e > 0)` loop of `modexp_cpp` (pollard_kangroo.cpp, lines 12-22). -/
def modexp_cpp_loop : Nat → Nat → Nat → Nat → Nat → Nat
  | 0, result, _, _, _ => result
  | fuel + 1, result, cur, e, mod =>
    if e > 0 then
      let result1 :=
        if e &&& 1 ≠ 0 then ((result * cur) % 2 ^ 128 % mod) % 2 ^ 64 else result
      let cur1 := ((cur * cur) % 2 ^ 128 % mod) % 2 ^ 64
      modexp_cpp_loop fuel result1 cur1 (e >>> 1) mod
    else result

/-- `modexp_cpp` of pollard_kangroo.cpp (lines 7-24). -/
def modexp_cpp (base exp mod : Nat) : Except Fault Nat :=
  if mod = 0 then .error .div_by_zero
  else .ok (modexp_cpp_loop 64 1 (base % mod) exp mod)

/-- The file-scope `partition_count` of pollard_kangroo.c (line 32); it is
never assigned after its initialisation. -/
def partition_count : Int := 32

/-- The member `partition_count_` of `PollardKangaroo`: private, set to 32 by
the only constructor and never assigned afterwards. -/
def partition_count_ : Int := 32

/-- `partition` of pollard_kangroo.c (lines 37-41): the `int` operand
`partition_count - 1` is converted to `uint64_t`, the conjunction is cast to `int`. -/
def partition (x : Nat) : Int :=
  toInt32 (Int.ofNat (x &&& toUInt64 (partition_count - 1)))

/-- The lambda `partition` of `PollardKangaroo::solve` (pollard_kangroo.cpp, lines 79-81). -/
def partition_cpp (x : Nat) : Int :=
  toInt32 (Int.ofNat (x &&& toUInt64 (partition_count_ - 1)))

/-- The storage that outlives a call: the two table pointers (`none` is the null
pointer) and the state of the library generator, given as the stream of the
values the next calls of `rand()` return. -/
structure KState where
  jump_table : Option (List Nat)
  exp_table : Option (List Int)
  rand_stream : Nat → Nat

/-- The library behaviour a call depends on. -/
structure Env where
  /-- The stream `rand()` produces after `srand((unsigned)time(NULL))`. -/
  seeded : Nat → Nat
  /-- The value of `(long long)(2.0*sqrt((long double)n))` in C, where `sqrt` is the
  `double` function of `math.h`. -/
  two_sqrt : Int → Int
  /-- The value of `(long long)(2.0 * std::sqrt((long double)n))` in C++, where
  `std::sqrt` is the `long double` overload of `cmath`. -/
  two_sqrt_cpp : Int → Int
  /-- The unspecified contents of a freshly allocated `uint64_t` block. -/
  fresh_u64 : Nat → Nat
  /-- The unspecified contents of a freshly allocated `long long` block. -/
  fresh_ll : Nat → Int

/-- A freshly allocated block of `n` cells. -/
def alloc {α : Type} (n : Int) (contents : Nat → α) : List α :=
  (List.range n.toNat).map contents

/-- Reading `tbl[i]` with an `int` index. -/
def lookup {α : Type} (tbl : List α) (i : Int) : Except Fault α :=
  if i < 0 then .error .out_of_bounds
  else
    match tbl[i.toNat]? with
    | some v => .ok v
    | none => .error .out_of_bounds

/-- Writing `tbl[i] = v` with an `int` index. -/
def store {α : Type} (tbl : List α) (i : Int) (v : α) : Except Fault (List α) :=
  if i < 0 then .error .out_of_bounds
  else if i.toNat < tbl.length then .ok (tbl.set i.toNat v)
  else .error .out_of_bounds

/-- The expression `h % p` on `uint64_t`. -/
def umod (h p : Nat) : Except Fault Nat :=
  if p = 0 then .error .div_by_zero else .ok (h % p)

/-- The expression `((__uint128_t)x * y) % p`, stored in a `uint64_t`. -/
def umulmod (x y p : Nat) : Except Fault Nat :=
  if p = 0 then .error .div_by_zero else .ok (((x * y) % 2 ^ 128 % p) % 2 ^ 64)

/-- The expression `(interval_size / (2LL * partition_count)) + 1LL`
(pollard_kangroo.c, line 66). -/
def max_jump_of (interval_size : Int) : Int :=
  toInt64 (Int.tdiv interval_size (toInt64 (2 * partition_count)) + 1)

/-- The expression `1 + (rand() % (int)(max_jump))` (pollard_kangroo.c, line 86),
computed in `int` and widened to `long long`; `r` is the value of `rand()`. -/
def step_size (r : Nat) (max_jump : Int) : Except Fault Int :=
  if toInt32 max_jump = 0 then .error .div_by_zero
  else .ok (toInt32 (1 + Int.tmod (Int.ofNat r) (toInt32 max_jump)))

/-- The table loop of `pollard_kangaroo` (pollard_kangroo.c, lines 84-89).
`n` is the number of iterations left (`partition_count - i`); the result is the
two tables and the generator state after the loop. -/
def fill_tables (g p : Nat) (max_jump : Int) :
    Nat → Int → (Nat → Nat) → List Nat → List Int →
      Except Fault (List Nat × List Int × (Nat → Nat))
  | 0, _, rs, jt, et => .ok (jt, et, rs)
  | n + 1, i, rs, jt, et => do
    let s_i ← step_size (rs 0) max_jump
    let jv ← modexp g (toUInt64 s_i) p
    let jt1 ← store jt i jv
    let et1 ← store et i s_i
    fill_tables g p max_jump n (i + 1) (fun k => rs (k + 1)) jt1 et1

/-- The expression of lines 92-93 of pollard_kangroo.c: the loop bound. -/
def loop_bound_of (env : Env) (interval_size : Int) : Int :=
  let loop_bound := toInt64 (env.two_sqrt interval_size + 1000)
  if loop_bound < 0 then 1000 else loop_bound

/-- The walk loop of `pollard_kangaroo` (pollard_kangroo.c, lines 95-128); the
first argument is the number of iterations left.  The result is the value the
function returns: from inside the loop at the first collision, or `-1` when the
loop ends. -/
def walk (g h p : Nat) (a b : Int) (jump_table : List Nat) (exp_table : List Int) :
    Nat → Nat → Int → Nat → Int → Except Fault Int
  | 0, _, _, _, _ => .ok (-1)
  | n + 1, T, T_exp, W, W_exp => do
    let idx_t := partition T
    let jv_t ← lookup jump_table idx_t
    let T1 ← umulmod T jv_t p
    let s_t ← lookup exp_table idx_t
    let T_exp1 := toInt64 (T_exp - s_t)
    let idx_w := partition W
    let jv_w ← lookup jump_table idx_w
    let W1 ← umulmod W jv_w p
    let s_w ← lookup exp_table idx_w
    let W_exp1 := toInt64 (W_exp + s_w)
    if T1 = W1 then
      let candidate_x := toInt64 (b - T_exp1)
      if candidate_x ≥ a ∧ candidate_x ≤ b then do
        let check ← modexp g (toUInt64 candidate_x) p
        let hp ← umod h p
        if check = hp then .ok candidate_x else .ok (-1)
      else .ok (-1)
    else walk g h p a b jump_table exp_table n T1 T_exp1 W1 W_exp1

/-- `pollard_kangaroo` of pollard_kangroo.c (lines 43-136).  Every exit after
the allocation frees both tables and resets the pointers. -/
def pollard_kangaroo (env : Env) (g h p : Nat) (a b : Int) (s : KState) :
    Except Fault (Int × KState) :=
  if a > b then .ok (-1, s)
  else
    let interval_size := toInt64 (b - a)
    if interval_size < 0 then .ok (-1, s)
    else do
      let power_gb ← modexp g (toUInt64 b) p
      let T := power_gb
      let T_exp := b
      let W ← umod h p
      let W_exp : Int := 0
      let max_jump := max_jump_of interval_size
      let jump_table0 := alloc partition_count env.fresh_u64
      let exp_table0 := alloc partition_count env.fresh_ll
      let (jump_table, exp_table, rs) ←
        fill_tables g p max_jump partition_count.toNat 0 env.seeded jump_table0 exp_table0
      let loop_bound := loop_bound_of env interval_size
      let r ← walk g h p a b jump_table exp_table loop_bound.toNat T T_exp W W_exp
      .ok (r, { jump_table := none, exp_table := none, rand_stream := rs })

/-- The expression of lines 83-84 of pollard_kangroo.cpp: the loop bound. -/
def loop_bound_of_cpp (env : Env) (interval_size : Int) : Int :=
  let loop_bound := toInt64 (env.two_sqrt_cpp interval_size + 1000)
  if loop_bound < 0 then 1000 else loop_bound

/-- The table loop of `PollardKangaroo::solve` (pollard_kangroo.cpp, lines 72-77). -/
def fill_tables_cpp (g p : Nat) (max_jump : Int) :
    Nat → Int → (Nat → Nat) → List Nat → List Int →
      Except Fault (List Nat × List Int × (Nat → Nat))
  | 0, _, rs, jt, et => .ok (jt, et, rs)
  | n + 1, i, rs, jt, et => do
    let s_i ← step_size (rs 0) max_jump
    let jv ← modexp_cpp g (toUInt64 s_i) p
    let jt1 ← store jt i jv
    let et1 ← store et i s_i
    fill_tables_cpp g p max_jump n (i + 1) (fun k => rs (k + 1)) jt1 et1

/-- The walk loop of `PollardKangaroo::solve` (pollard_kangroo.cpp, lines 86-114). -/
def walk_cpp (g h p : Nat) (a b : Int) (jump_table_ : List Nat) (exp_table_ : List Int) :
    Nat → Nat → Int → Nat → Int → Except Fault Int
  | 0, _, _, _, _ => .ok (-1)
  | n + 1, T, T_exp, W, W_exp => do
    let idx_t := partition_cpp T
    let jv_t ← lookup jump_table_ idx_t
    let T1 ← umulmod T jv_t p
    let s_t ← lookup exp_table_ idx_t
    let T_exp1 := toInt64 (T_exp - s_t)
    let idx_w := partition_cpp W
    let jv_w ← lookup jump_table_ idx_w
    let W1 ← umulmod W jv_w p
    let s_w ← lookup exp_table_ idx_w
    let W_exp1 := toInt64 (W_exp + s_w)
    if T1 = W1 then
      let candidate_x := toInt64 (b - T_exp1)
      if candidate_x ≥ a ∧ candidate_x ≤ b then do
        let check ← modexp_cpp g (toUInt64 candidate_x) p
        let hp ← umod h p
        if check = hp then .ok candidate_x else .ok (-1)
      else .ok (-1)
    else walk_cpp g h p a b jump_table_ exp_table_ n T1 T_exp1 W1 W_exp1

/-- `PollardKangaroo::solve` of pollard_kangroo.cpp (lines 44-116).  The tables
built by the call stay in the object when the call returns. -/
def solve (env : Env) (g h p : Nat) (a b : Int) (s : KState) :
    Except Fault (Int × KState) :=
  if a > b then .ok (-1, s)
  else
    let interval_size := toInt64 (b - a)
    if interval_size < 0 then .ok (-1, s)
    else do
      let power_gb ← modexp_cpp g (toUInt64 b) p
      let T := power_gb
      let T_exp := b
      let W ← umod h p
      let W_exp : Int := 0
      let max_jump := toInt64 (Int.tdiv interval_size (toInt64 (2 * partition_count_)) + 1)
      let jump_table0 := alloc partition_count_ env.fresh_u64
      let exp_table0 := alloc partition_count_ env.fresh_ll
      let (jump_table_, exp_table_, rs) ←
        fill_tables_cpp g p max_jump partition_count_.toNat 0 env.seeded jump_table0 exp_table0
      let loop_bound := loop_bound_of_cpp env interval_size
      let r ← walk_cpp g h p a b jump_table_ exp_table_ loop_bound.toNat T T_exp W W_exp
      .ok (r, { jump_table := some jump_table_, exp_table := some exp_table_, rand_stream := rs })

/-- The value a run returns to its caller, `none` when the run has no defined result. -/
def returned (r : Except Fault (Int × KState)) : Option Int :=
  match r with
  | .ok (v, _) => some v
  | .error _ => none

/-- The position of the highest set bit of `n` (`0` for `n ≤ 1`); the first argument
bounds the number of halvings. -/
def bit_index : Nat → Nat → Nat
  | 0, _ => 0
  | fuel + 1, n => if 2 ≤ n then bit_index fuel (n / 2) + 1 else 0

/-- The integer square root of `n < 4 ^ k`, found bit by bit from bit `k - 1` down:
a bit is kept when the square stays at most `n`. -/
def root_bits : Nat → Nat → Nat → Nat
  | 0, _, r => r
  | k + 1, n, r => root_bits k n (if (r + 2 ^ k) * (r + 2 ^ k) ≤ n then r + 2 ^ k else r)

/-- The conversion to `double` of a `long double` that holds the integer `n < 2 ^ 64`:
the value is rounded to 53 significant bits, to nearest with ties to even.  The call
`sqrt((long double)interval_size)` of pollard_kangroo.c (line 92) converts its argument
this way, as `sqrt` of `math.h` takes a `double`. -/
def to_double (n : Nat) : Nat :=
  if n < 2 ^ 53 then n
  else
    let sh := bit_index 64 n - 52
    let hi := n / 2 ^ sh
    let lo := n % 2 ^ sh
    let half := 2 ^ (sh - 1)
    if lo > half ∨ (lo = half ∧ hi % 2 = 1) then (hi + 1) * 2 ^ sh else hi * 2 ^ sh

/-- The value of `(long long)(2.0 * y)`, where `y` is the square root of the integer
`m < 2 ^ 64` rounded to the nearest number with `prec` significant bits (a square root
is never half way between two of them).  With `2 ^ e ≤ √m < 2 ^ (e + 1)` the rounded
root is `Y * 2 ^ (e + 1 - prec)` for the integer `Y` nearest to
`√(m * 4 ^ (prec - 1 - e))`; doubling is exact and the cast truncates. -/
def two_sqrt_rounded (prec m : Nat) : Nat :=
  if m = 0 then 0
  else
    let e := bit_index 64 m / 2
    let S := m * 4 ^ (prec - 1 - e)
    let r := root_bits prec S 0
    let Y := if S ≤ r * r + r then r else r + 1
    Y / 2 ^ (prec - 2 - e)

/-- The environment of a platform with IEEE 754 arithmetic and the formats of the
x86-64 System V ABI: the C expression `(long long)(2.0*sqrt((long double)n))` rounds `n`
and its square root to `double`, the C++ expression
`(long long)(2.0 * std::sqrt((long double)n))` works in `long double`, which holds `n`
exactly.  The argument is the interval size, which is not negative where the
expression is evaluated.  Generator and fresh blocks are parameters. -/
def ieee_env (seeded : Nat → Nat) (fresh_u64 : Nat → Nat) (fresh_ll : Nat → Int) : Env :=
  { seeded := seeded
    two_sqrt := fun n => Int.ofNat (two_sqrt_rounded 53 (to_double n.toNat))
    two_sqrt_cpp := fun n => Int.ofNat (two_sqrt_rounded 64 n.toNat)
    fresh_u64 := fresh_u64
    fresh_ll := fresh_ll }

/-- The IEEE 754 environment whose generator yields the constant `r`, with zeroed
fresh blocks. -/
def const_env (r : Nat) : Env :=
  ieee_env (fun _ => r) (fun _ => 0) (fun _ => 0)

/-- The environment in which the C expression for the loop bound takes the value of
the C++ expression; all other library behaviour is unchanged. -/
def cpp_view (env : Env) : Env :=
  { env with two_sqrt := env.two_sqrt_cpp }

/-- The state of a process that has not called the solver yet. -/
def init_state : KState :=
  { jump_table := none, exp_table := none, rand_stream := fun _ => 0 }

/-- The variables of the walk: position and exponent offset of the tame and of the
wild kangaroo. -/
structure Kangaroos where
  T : Nat
  T_exp : Int
  W : Nat
  W_exp : Int
  deriving DecidableEq

/-- One jump of a kangaroo that stands at `x` (pollard_kangroo.c, lines 97-99 for the
tame and 102-104 for the wild one): the new position and the step size read from
the table. -/
def hop (p : Nat) (jump_table : List Nat) (exp_table : List Int) (x : Nat) :
    Except Fault (Nat × Int) := do
  let idx := partition x
  let jv ← lookup jump_table idx
  let x1 ← umulmod x jv p
  let s ← lookup exp_table idx
  .ok (x1, s)

/-- The two updates of one iteration (pollard_kangroo.c, lines 96-104), before the
collision test of line 106. -/
def walk_step (p : Nat) (jump_table : List Nat) (exp_table : List Int) (k : Kangaroos) :
    Except Fault Kangaroos := do
  let tame ← hop p jump_table exp_table k.T
  let wild ← hop p jump_table exp_table k.W
  .ok { T := tame.1, T_exp := toInt64 (k.T_exp - tame.2),
        W := wild.1, W_exp := toInt64 (k.W_exp + wild.2) }

/-- The variables after `n` iterations of the loop body, none of which has left the
loop. -/
def walk_state (p : Nat) (jump_table : List Nat) (exp_table : List Int) :
    Nat → Kangaroos → Except Fault Kangaroos
  | 0, k => .ok k
  | n + 1, k => do
    let k1 ← walk_step p jump_table exp_table k
    walk_state p jump_table exp_table n k1

/-- The collision branch (pollard_kangroo.c, lines 107-126) for the tame offset
`T_exp` reached at the collision: the value the function returns. -/
def resolve (g h p : Nat) (a b : Int) (T_exp : Int) : Except Fault Int :=
  let candidate_x := toInt64 (b - T_exp)
  if candidate_x ≥ a ∧ candidate_x ≤ b then do
    let check ← modexp g (toUInt64 candidate_x) p
    let hp ← umod h p
    if check = hp then .ok candidate_x else .ok (-1)
  else .ok (-1)

/-- The first `n` jumps of one kangaroo that starts at `x`: the position reached and
the exact sum, as an unbounded integer, of the step sizes it has taken. -/
def trek (p : Nat) (jump_table : List Nat) (exp_table : List Int) :
    Nat → Nat → Except Fault (Nat × Int)
  | 0, x => .ok (x, 0)
  | n + 1, x => do
    let first ← hop p jump_table exp_table x
    let rest ← trek p jump_table exp_table n first.1
    .ok (rest.1, first.2 + rest.2)

/-- The tables a call builds (pollard_kangroo.c, lines 66-89), with the state of the
generator after the table loop. -/
def built_tables (env : Env) (g p : Nat) (a b : Int) :
    Except Fault (List Nat × List Int × (Nat → Nat)) :=
  fill_tables g p (max_jump_of (toInt64 (b - a))) partition_count.toNat 0 env.seeded
    (alloc partition_count env.fresh_u64) (alloc partition_count env.fresh_ll)

/-- The variables of a call of `pollard_kangaroo` after `n` iterations of its walk
loop, none of which has left the loop: the start values of lines 53-61, the tables
of lines 66-89 and `n` times the updates of lines 96-104. -/
def kangaroos_after (env : Env) (g h p : Nat) (a b : Int) (n : Nat) :
    Except Fault Kangaroos := do
  let power_gb ← modexp g (toUInt64 b) p
  let W ← umod h p
  let tables ← built_tables env g p a b
  walk_state p tables.1 tables.2.1 n { T := power_gb, T_exp := b, W := W, W_exp := 0 }

/-- The relation between the two tables that the generator aims at: every jump value
is the power of `g` given by its non-negative step size, `jump_value = g ^ step mod p`. -/
def jump_relation (g p : Nat) (jump_table : List Nat) (exp_table : List Int) : Prop :=
  jump_table.length = 32 ∧ exp_table.length = 32 ∧
    ∀ i, i < 32 → 0 ≤ exp_table.getD i 0 ∧
      jump_table.getD i 0 = g ^ (exp_table.getD i 0).toNat % p

/-- The exponents one kangaroo visits, when the size of its jump is a function `σ` of
the exponent it stands at: the exponent reached from `e` after `n` jumps. -/
def trail (σ : Nat → Nat) : Nat → Nat → Nat
  | 0, e => e
  | n + 1, e => trail σ n (e + σ e)

/-! ## Arithmetic of the helpers -/

theorem wide_mul_mod (x y m : Nat) (hm0 : 0 < m) (hm : m < 2 ^ 64) (hx : x < 2 ^ 64)
    (hy : y < 2 ^ 64) : ((x * y) % 2 ^ 128 % m) % 2 ^ 64 = x * y % m := by
  have h1 : x * y < 2 ^ 128 := by
    calc x * y < 2 ^ 64 * 2 ^ 64 := Nat.mul_lt_mul_of_lt_of_le hx (le_of_lt hy) (by norm_num)
      _ = 2 ^ 128 := by norm_num
  rw [Nat.mod_eq_of_lt h1]
  exact Nat.mod_eq_of_lt (lt_trans (Nat.mod_lt _ hm0) hm)

theorem modexp_loop_spec (m : Nat) (hm0 : 0 < m) (hm : m < 2 ^ 64) :
    ∀ (fuel result cur e : Nat), cur < m → result < 2 ^ 64 → e < 2 ^ fuel →
      modexp_loop fuel result cur e m = if e = 0 then result else result * cur ^ e % m := by
  intro fuel
  induction fuel with
  | zero =>
    intro result cur e _ _ he
    have : e = 0 := by simpa using he
    simp [modexp_loop, this]
  | succ n ih =>
    intro result cur e hcur hres he
    unfold modexp_loop
    by_cases h0 : e = 0
    · simp [h0]
    · have hpos : e > 0 := Nat.pos_of_ne_zero h0
      have hcur64 : cur < 2 ^ 64 := lt_trans hcur hm
      have hhalf : e >>> 1 < 2 ^ n := by
        rw [Nat.shiftRight_eq_div_pow, pow_one]
        apply Nat.div_lt_of_lt_mul
        rw [pow_succ] at he
        omega
      have hc1 : cur * cur % m < m := Nat.mod_lt _ hm0
      simp only [hpos, if_true, h0, if_false, Nat.and_one_is_mod]
      rw [wide_mul_mod cur cur m hm0 hm hcur64 hcur64]
      by_cases hodd : e % 2 = 1
      · have hne : e % 2 ≠ 0 := by omega
        simp only [ne_eq, hne, not_false_eq_true, if_true]
        rw [wide_mul_mod result cur m hm0 hm hres hcur64]
        rw [ih _ _ _ hc1 (lt_trans (Nat.mod_lt _ hm0) hm) hhalf]
        rw [Nat.shiftRight_eq_div_pow, pow_one]
        have hdecomp : e = 2 * (e / 2) + 1 := by omega
        by_cases hz : e / 2 = 0
        · have he1 : e = 1 := by omega
          simp [hz, he1]
        · simp only [hz, if_false]
          have key : Nat.ModEq m ((result * cur % m) * (cur * cur % m) ^ (e / 2))
              (result * cur * (cur * cur) ^ (e / 2)) :=
            Nat.ModEq.mul (Nat.mod_modEq _ _) ((Nat.mod_modEq _ _).pow _)
          have hpow : result * cur * (cur * cur) ^ (e / 2) = result * cur ^ e := by
            conv_rhs => rw [hdecomp]
            ring
          rw [← hpow]
          exact key
      · have he0 : e % 2 = 0 := by omega
        simp only [ne_eq, he0, not_true_eq_false, if_false]
        rw [ih _ _ _ hc1 hres hhalf]
        rw [Nat.shiftRight_eq_div_pow, pow_one]
        have hdecomp : e = 2 * (e / 2) := by omega
        have hz : e / 2 ≠ 0 := by omega
        simp only [hz, if_false]
        have key : Nat.ModEq m (result * (cur * cur % m) ^ (e / 2))
            (result * (cur * cur) ^ (e / 2)) :=
          Nat.ModEq.mul rfl ((Nat.mod_modEq _ _).pow _)
        have hpow : result * (cur * cur) ^ (e / 2) = result * cur ^ e := by
          conv_rhs => rw [hdecomp]
          ring
        rw [← hpow]
        exact key

theorem modexp_cpp_loop_eq (fuel result cur e m : Nat) :
    modexp_cpp_loop fuel result cur e m = modexp_loop fuel result cur e m := by
  induction fuel generalizing result cur e with
  | zero => rfl
  | succ n ih => simp only [modexp_cpp_loop, modexp_loop, ih]

theorem modexp_cpp_eq (base exp mod : Nat) : modexp_cpp base exp mod = modexp base exp mod := by
  simp only [modexp_cpp, modexp, modexp_cpp_loop_eq]

theorem modexp_value (base e m : Nat) (hm0 : 0 < m) (hm : m < 2 ^ 64) (he : e < 2 ^ 64) :
    modexp base e m = .ok (if e = 0 then 1 else base ^ e % m) := by
  have hne : m ≠ 0 := Nat.pos_iff_ne_zero.mp hm0
  simp only [modexp, hne, if_false]
  rw [modexp_loop_spec m hm0 hm 64 1 (base % m) e (Nat.mod_lt _ hm0) (by norm_num) he]
  by_cases h0 : e = 0
  · simp [h0]
  · simp only [h0, if_false, one_mul]
    rw [← Nat.pow_mod]

theorem toUInt64_lt (x : Int) : toUInt64 x < 2 ^ 64 := by
  unfold toUInt64
  omega

theorem toUInt64_of_nonneg (x : Int) (h0 : 0 ≤ x) (h1 : x < 2 ^ 64) : toUInt64 x = x.toNat := by
  unfold toUInt64
  omega

theorem toInt64_lower (x : Int) : -(2 ^ 63) ≤ toInt64 x := by
  unfold toInt64
  omega

theorem toInt64_upper (x : Int) : toInt64 x < 2 ^ 63 := by
  unfold toInt64
  omega

theorem toInt64_of_range (x : Int) (h0 : -(2 ^ 63) ≤ x) (h1 : x < 2 ^ 63) : toInt64 x = x := by
  unfold toInt64
  omega

theorem toInt32_of_range (x : Int) (h0 : -(2 ^ 31) ≤ x) (h1 : x < 2 ^ 31) : toInt32 x = x := by
  unfold toInt32
  omega

theorem partition_eq_mod (x : Nat) : partition x = Int.ofNat (x % 32) := by
  have h31 : toUInt64 (partition_count - 1) = 2 ^ 5 - 1 := by decide
  unfold partition
  rw [h31, Nat.and_pow_two_sub_one_eq_mod]
  have : x % 2 ^ 5 < 32 := Nat.mod_lt _ (by norm_num)
  have h0 : -(2 ^ 31) ≤ Int.ofNat (x % 2 ^ 5) := by
    simp only [Int.ofNat_eq_coe]; omega
  have h1 : Int.ofNat (x % 2 ^ 5) < 2 ^ 31 := by
    simp only [Int.ofNat_eq_coe]; omega
  rw [toInt32_of_range _ h0 h1]
  norm_num

theorem partition_cpp_eq (x : Nat) : partition_cpp x = partition x := rfl

/-! ## The walk -/

theorem bind_eq_ok {α β : Type} (x : Except Fault α) (f : α → Except Fault β) (v : β) :
    (x >>= f) = .ok v ↔ ∃ a, x = .ok a ∧ f a = .ok v := by
  cases x with
  | error e => simp [bind, Except.bind]
  | ok a => simp [bind, Except.bind]

theorem lookup_partition {α : Type} (tbl : List α) (hlen : tbl.length = 32) (x : Nat) :
    ∃ v, lookup tbl (partition x) = .ok v := by
  have hlt : x % 32 < tbl.length := by rw [hlen]; exact Nat.mod_lt _ (by norm_num)
  refine ⟨tbl.get ⟨x % 32, hlt⟩, ?_⟩
  rw [partition_eq_mod]
  have hneg : ¬ (Int.ofNat (x % 32) < 0) := by
    simp only [Int.ofNat_eq_coe]; omega
  have ht : (Int.ofNat (x % 32)).toNat = x % 32 := rfl
  simp only [lookup, hneg, if_false, ht]
  rw [List.getElem?_eq_getElem hlt]
  rfl

theorem lookup_ne_div {α : Type} (tbl : List α) (i : Int) :
    lookup tbl i ≠ .error .div_by_zero := by
  unfold lookup
  split
  · simp
  · split <;> simp

theorem umulmod_ok (x y p : Nat) (hp : p ≠ 0) :
    umulmod x y p = .ok (((x * y) % 2 ^ 128 % p) % 2 ^ 64) := by
  simp [umulmod, hp]

theorem umod_ok (h p : Nat) (hp : p ≠ 0) : umod h p = .ok (h % p) := by
  simp [umod, hp]

theorem umod_eq_ok (h p v : Nat) (hv : umod h p = .ok v) : p ≠ 0 ∧ v = h % p := by
  unfold umod at hv
  split at hv
  · simp at hv
  · simp only [Except.ok.injEq] at hv
    exact ⟨by assumption, hv.symm⟩

/-- What a value returned by the walk satisfies: it is the sentinel, or it passed
the range check and the verification of lines 109-112. -/
theorem walk_result (g h p : Nat) (a b : Int) (jt : List Nat) (et : List Int) :
    ∀ (n T : Nat) (T_exp : Int) (W : Nat) (W_exp r : Int),
      walk g h p a b jt et n T T_exp W W_exp = .ok r →
        r = -1 ∨ (a ≤ r ∧ r ≤ b ∧ r < 2 ^ 63 ∧ modexp g (toUInt64 r) p = .ok (h % p)) := by
  intro n
  induction n with
  | zero =>
    intro T T_exp W W_exp r hr
    rw [walk] at hr
    simp only [Except.ok.injEq] at hr
    exact Or.inl hr.symm
  | succ n ih =>
    intro T T_exp W W_exp r hr
    rw [walk] at hr
    obtain ⟨jv_t, _, hr1⟩ := (bind_eq_ok _ _ _).mp hr
    obtain ⟨T1, _, hr2⟩ := (bind_eq_ok _ _ _).mp hr1
    obtain ⟨s_t, _, hr3⟩ := (bind_eq_ok _ _ _).mp hr2
    obtain ⟨jv_w, _, hr4⟩ := (bind_eq_ok _ _ _).mp hr3
    obtain ⟨W1, _, hr5⟩ := (bind_eq_ok _ _ _).mp hr4
    obtain ⟨s_w, _, hr6⟩ := (bind_eq_ok _ _ _).mp hr5
    clear hr hr1 hr2 hr3 hr4 hr5
    dsimp only at hr6
    by_cases hcol : T1 = W1
    · rw [if_pos hcol] at hr6
      by_cases hrange : toInt64 (b - toInt64 (T_exp - s_t)) ≥ a ∧
          toInt64 (b - toInt64 (T_exp - s_t)) ≤ b
      · rw [if_pos hrange] at hr6
        obtain ⟨check, hc, hr7⟩ := (bind_eq_ok _ _ _).mp hr6
        obtain ⟨hp, hhp, hr8⟩ := (bind_eq_ok _ _ _).mp hr7
        obtain ⟨_, hv⟩ := umod_eq_ok _ _ _ hhp
        by_cases heq : check = hp
        · rw [if_pos heq] at hr8
          simp only [Except.ok.injEq] at hr8
          subst hr8
          refine Or.inr ⟨hrange.1, hrange.2, toInt64_upper _, ?_⟩
          rw [hc, heq, hv]
        · rw [if_neg heq] at hr8
          simp only [Except.ok.injEq] at hr8
          exact Or.inl hr8.symm
      · rw [if_neg hrange] at hr6
        simp only [Except.ok.injEq] at hr6
        exact Or.inl hr6.symm
    · rw [if_neg hcol] at hr6
      exact ih _ _ _ _ _ hr6

theorem ok_bind {α β : Type} (a : α) (f : α → Except Fault β) :
    ((Except.ok a : Except Fault α) >>= f) = f a := rfl

theorem error_bind {α β : Type} (e : Fault) (f : α → Except Fault β) :
    ((Except.error e : Except Fault α) >>= f) = .error e := rfl

theorem bind_ne_error {α β : Type} (x : Except Fault α) (f : α → Except Fault β) (e : Fault)
    (hx : x ≠ .error e) (hf : ∀ a, x = .ok a → f a ≠ .error e) : (x >>= f) ≠ .error e := by
  cases x with
  | error e1 =>
    rw [error_bind]
    intro hc
    apply hx
    cases hc
    rfl
  | ok a =>
    rw [ok_bind]
    exact hf a rfl

theorem walk_cpp_eq (g h p : Nat) (a b : Int) (jt : List Nat) (et : List Int) :
    ∀ (n T : Nat) (T_exp : Int) (W : Nat) (W_exp : Int),
      walk_cpp g h p a b jt et n T T_exp W W_exp = walk g h p a b jt et n T T_exp W W_exp := by
  intro n
  induction n with
  | zero => intro T T_exp W W_exp; rfl
  | succ n ih =>
    intro T T_exp W W_exp
    rw [walk_cpp, walk]
    simp only [partition_cpp_eq, modexp_cpp_eq, ih]

theorem fill_tables_cpp_eq (g p : Nat) (max_jump : Int) :
    ∀ (n : Nat) (i : Int) (rs : Nat → Nat) (jt : List Nat) (et : List Int),
      fill_tables_cpp g p max_jump n i rs jt et = fill_tables g p max_jump n i rs jt et := by
  intro n
  induction n with
  | zero => intro i rs jt et; rfl
  | succ n ih =>
    intro i rs jt et
    rw [fill_tables_cpp, fill_tables]
    simp only [modexp_cpp_eq, ih]

theorem modexp_ne_oob (base e m : Nat) : modexp base e m ≠ .error .out_of_bounds := by
  unfold modexp
  split <;> simp

theorem umod_ne_oob (h p : Nat) : umod h p ≠ .error .out_of_bounds := by
  unfold umod
  split <;> simp

theorem umulmod_ne_oob (x y p : Nat) : umulmod x y p ≠ .error .out_of_bounds := by
  unfold umulmod
  split <;> simp

theorem step_size_ne_oob (r : Nat) (m : Int) : step_size r m ≠ .error .out_of_bounds := by
  unfold step_size
  split <;> simp

theorem modexp_ok (base e m : Nat) (hm : m ≠ 0) : ∃ v, modexp base e m = .ok v := by
  simp [modexp, hm]

theorem store_ok {α : Type} (tbl : List α) (i : Int) (v : α) (h0 : 0 ≤ i)
    (h1 : i.toNat < tbl.length) : store tbl i v = .ok (tbl.set i.toNat v) := by
  have : ¬ i < 0 := by omega
  simp [store, this, h1]

/-- The walk never reads outside tables of `partition_count` entries. -/
theorem walk_ne_oob (g h p : Nat) (a b : Int) (jt : List Nat) (et : List Int)
    (hjt : jt.length = 32) (het : et.length = 32) :
    ∀ (n T : Nat) (T_exp : Int) (W : Nat) (W_exp : Int),
      walk g h p a b jt et n T T_exp W W_exp ≠ .error .out_of_bounds := by
  intro n
  induction n with
  | zero =>
    intro T T_exp W W_exp
    rw [walk]
    simp
  | succ n ih =>
    intro T T_exp W W_exp
    rw [walk]
    obtain ⟨jv_t, h1⟩ := lookup_partition jt hjt T
    obtain ⟨s_t, h2⟩ := lookup_partition et het T
    obtain ⟨jv_w, h3⟩ := lookup_partition jt hjt W
    obtain ⟨s_w, h4⟩ := lookup_partition et het W
    dsimp only
    rw [h1, ok_bind]
    refine bind_ne_error _ _ _ (umulmod_ne_oob _ _ _) (fun T1 _ => ?_)
    rw [h2, ok_bind, h3, ok_bind]
    refine bind_ne_error _ _ _ (umulmod_ne_oob _ _ _) (fun W1 _ => ?_)
    rw [h4, ok_bind]
    split
    · split
      · refine bind_ne_error _ _ _ (modexp_ne_oob _ _ _) (fun c _ => ?_)
        refine bind_ne_error _ _ _ (umod_ne_oob _ _) (fun hp _ => ?_)
        split <;> simp
      · simp
    · exact ih _ _ _ _

/-- With a non-zero modulus and tables of `partition_count` entries the walk
returns a value. -/
theorem walk_total (g h p : Nat) (a b : Int) (jt : List Nat) (et : List Int)
    (hp : p ≠ 0) (hjt : jt.length = 32) (het : et.length = 32) :
    ∀ (n T : Nat) (T_exp : Int) (W : Nat) (W_exp : Int),
      ∃ r, walk g h p a b jt et n T T_exp W W_exp = .ok r := by
  intro n
  induction n with
  | zero =>
    intro T T_exp W W_exp
    exact ⟨-1, by rw [walk]⟩
  | succ n ih =>
    intro T T_exp W W_exp
    rw [walk]
    obtain ⟨jv_t, h1⟩ := lookup_partition jt hjt T
    obtain ⟨s_t, h2⟩ := lookup_partition et het T
    obtain ⟨jv_w, h3⟩ := lookup_partition jt hjt W
    obtain ⟨s_w, h4⟩ := lookup_partition et het W
    dsimp only
    rw [h1, ok_bind, umulmod_ok _ _ _ hp, ok_bind, h2, ok_bind, h3, ok_bind,
      umulmod_ok _ _ _ hp, ok_bind, h4, ok_bind]
    split
    · split
      · obtain ⟨c, hc⟩ := modexp_ok g (toUInt64 (toInt64 (b - toInt64 (T_exp - s_t)))) p hp
        rw [hc, ok_bind, umod_ok _ _ hp, ok_bind]
        split
        · exact ⟨_, rfl⟩
        · exact ⟨_, rfl⟩
      · exact ⟨_, rfl⟩
    · exact ih _ _ _ _

/-! ## The table loop -/

theorem step_size_ok (r : Nat) (m : Int) (hm : toInt32 m ≠ 0) :
    step_size r m = .ok (toInt32 (1 + Int.tmod (Int.ofNat r) (toInt32 m))) := by
  simp [step_size, hm]

theorem store_length {α : Type} (tbl tbl1 : List α) (i : Int) (v : α)
    (h : store tbl i v = .ok tbl1) : tbl1.length = tbl.length := by
  unfold store at h
  split at h
  · simp at h
  · split at h
    · simp only [Except.ok.injEq] at h
      rw [← h, List.length_set]
    · simp at h

/-- The table loop keeps the size of both blocks. -/
theorem fill_tables_length (g p : Nat) (max_jump : Int) :
    ∀ (n : Nat) (i : Int) (rs : Nat → Nat) (jt : List Nat) (et : List Int)
      (jt1 : List Nat) (et1 : List Int) (rs1 : Nat → Nat),
      fill_tables g p max_jump n i rs jt et = .ok (jt1, et1, rs1) →
        jt1.length = jt.length ∧ et1.length = et.length := by
  intro n
  induction n with
  | zero =>
    intro i rs jt et jt1 et1 rs1 h
    rw [fill_tables] at h
    simp only [Except.ok.injEq, Prod.mk.injEq] at h
    exact ⟨by rw [h.1], by rw [h.2.1]⟩
  | succ n ih =>
    intro i rs jt et jt1 et1 rs1 h
    rw [fill_tables] at h
    obtain ⟨s_i, _, h2⟩ := (bind_eq_ok _ _ _).mp h
    obtain ⟨jv, _, h3⟩ := (bind_eq_ok _ _ _).mp h2
    obtain ⟨jt2, hj, h4⟩ := (bind_eq_ok _ _ _).mp h3
    obtain ⟨et2, he, h5⟩ := (bind_eq_ok _ _ _).mp h4
    obtain ⟨l1, l2⟩ := ih _ _ _ _ _ _ _ h5
    rw [l1, l2, store_length _ _ _ _ hj, store_length _ _ _ _ he]
    exact ⟨rfl, rfl⟩

/-- The table loop writes inside the blocks: cells `i`, ..., `i + n - 1`. -/
theorem fill_tables_ne_oob (g p : Nat) (max_jump : Int) :
    ∀ (n : Nat) (i : Int) (rs : Nat → Nat) (jt : List Nat) (et : List Int),
      0 ≤ i → i.toNat + n ≤ jt.length → et.length = jt.length →
        fill_tables g p max_jump n i rs jt et ≠ .error .out_of_bounds := by
  intro n
  induction n with
  | zero =>
    intro i rs jt et _ _ _
    rw [fill_tables]
    simp
  | succ n ih =>
    intro i rs jt et h0 hlen het
    rw [fill_tables]
    refine bind_ne_error _ _ _ (step_size_ne_oob _ _) (fun s_i _ => ?_)
    refine bind_ne_error _ _ _ (modexp_ne_oob _ _ _) (fun jv _ => ?_)
    rw [store_ok jt i jv h0 (by omega), ok_bind, store_ok et i s_i h0 (by omega), ok_bind]
    apply ih
    · omega
    · rw [List.length_set]; omega
    · rw [List.length_set, List.length_set]; exact het

/-- With a non-zero modulus and a non-zero `(int)max_jump` the table loop
completes, having drawn `n` values from the generator. -/
theorem fill_tables_total (g p : Nat) (max_jump : Int) (hp : p ≠ 0)
    (hm : toInt32 max_jump ≠ 0) :
    ∀ (n : Nat) (i : Int) (rs : Nat → Nat) (jt : List Nat) (et : List Int),
      0 ≤ i → i.toNat + n ≤ jt.length → et.length = jt.length →
        ∃ jt1 et1, fill_tables g p max_jump n i rs jt et = .ok (jt1, et1, fun k => rs (k + n)) := by
  intro n
  induction n with
  | zero =>
    intro i rs jt et _ _ _
    exact ⟨jt, et, by rw [fill_tables]; rfl⟩
  | succ n ih =>
    intro i rs jt et h0 hlen het
    rw [fill_tables, step_size_ok _ _ hm, ok_bind]
    obtain ⟨jv, hjv⟩ := modexp_ok g
      (toUInt64 (toInt32 (1 + Int.tmod (Int.ofNat (rs 0)) (toInt32 max_jump)))) p hp
    rw [hjv, ok_bind, store_ok jt i jv h0 (by omega), ok_bind,
      store_ok et i _ h0 (by omega), ok_bind]
    obtain ⟨jt1, et1, h⟩ := ih (i + 1) (fun k => rs (k + 1)) (jt.set i.toNat jv)
      (et.set i.toNat (toInt32 (1 + Int.tmod (Int.ofNat (rs 0)) (toInt32 max_jump))))
      (by omega) (by rw [List.length_set]; omega)
      (by rw [List.length_set, List.length_set]; exact het)
    refine ⟨jt1, et1, ?_⟩
    rw [h]
    have : (fun k => (fun k => rs (k + 1)) (k + n)) = fun k => rs (k + (n + 1)) := by
      funext k
      show rs (k + n + 1) = rs (k + (n + 1))
      rfl
    rw [this]

theorem alloc_length {α : Type} (f : Nat → α) : (alloc partition_count f).length = 32 := by
  simp [alloc, partition_count]

theorem alloc_length_cpp {α : Type} (f : Nat → α) : (alloc partition_count_ f).length = 32 := by
  simp [alloc, partition_count_]

/-! ## The two solvers -/

/-- The run of `pollard_kangaroo` after the two range guards, as the chain of
its fallible steps. -/
theorem pollard_kangaroo_body (env : Env) (g h p : Nat) (a b : Int) (s : KState)
    (hab : ¬ a > b) (hiv : ¬ toInt64 (b - a) < 0) :
    pollard_kangaroo env g h p a b s =
      (modexp g (toUInt64 b) p >>= fun power_gb =>
        umod h p >>= fun W =>
          fill_tables g p (max_jump_of (toInt64 (b - a))) partition_count.toNat 0 env.seeded
              (alloc partition_count env.fresh_u64) (alloc partition_count env.fresh_ll) >>=
            fun tables =>
              walk g h p a b tables.1 tables.2.1
                  (loop_bound_of env (toInt64 (b - a))).toNat power_gb b W 0 >>= fun r =>
                .ok (r, { jump_table := none, exp_table := none, rand_stream := tables.2.2 })) := by
  unfold pollard_kangaroo
  rw [if_neg hab]
  dsimp only
  rw [if_neg hiv]

theorem solve_body (env : Env) (g h p : Nat) (a b : Int) (s : KState)
    (hab : ¬ a > b) (hiv : ¬ toInt64 (b - a) < 0) :
    solve env g h p a b s =
      (modexp g (toUInt64 b) p >>= fun power_gb =>
        umod h p >>= fun W =>
          fill_tables g p (max_jump_of (toInt64 (b - a))) partition_count.toNat 0 env.seeded
              (alloc partition_count env.fresh_u64) (alloc partition_count env.fresh_ll) >>=
            fun tables =>
              walk g h p a b tables.1 tables.2.1
                  (loop_bound_of_cpp env (toInt64 (b - a))).toNat power_gb b W 0 >>= fun r =>
                .ok (r, { jump_table := some tables.1, exp_table := some tables.2.1,
                          rand_stream := tables.2.2 })) := by
  unfold solve
  rw [if_neg hab]
  dsimp only
  rw [if_neg hiv]
  simp only [modexp_cpp_eq, fill_tables_cpp_eq, walk_cpp_eq]
  rfl

/-- The C++ rendering returns the value, and leaves defined behaviour at the place,
of the C rendering run with the C++ value of the loop bound expression. -/
theorem solve_matches (env : Env) (g h p : Nat) (a b : Int) (s : KState) :
    returned (solve env g h p a b s) = returned (pollard_kangaroo (cpp_view env) g h p a b s) ∧
      ∀ e, solve env g h p a b s = .error e ↔
        pollard_kangaroo (cpp_view env) g h p a b s = .error e := by
  by_cases hab : a > b
  · simp [solve, pollard_kangaroo, hab]
  · by_cases hiv : toInt64 (b - a) < 0
    · simp [solve, pollard_kangaroo, hab, hiv]
    · rw [solve_body env g h p a b s hab hiv,
        pollard_kangaroo_body (cpp_view env) g h p a b s hab hiv]
      have hL : loop_bound_of (cpp_view env) (toInt64 (b - a)) =
          loop_bound_of_cpp env (toInt64 (b - a)) := rfl
      have hs : (cpp_view env).seeded = env.seeded := rfl
      have hf1 : (cpp_view env).fresh_u64 = env.fresh_u64 := rfl
      have hf2 : (cpp_view env).fresh_ll = env.fresh_ll := rfl
      rw [hL, hs, hf1, hf2]
      cases modexp g (toUInt64 b) p with
      | error e1 => simp [error_bind]
      | ok power_gb =>
        rw [ok_bind, ok_bind]
        cases umod h p with
        | error e1 => simp [error_bind]
        | ok W =>
          rw [ok_bind, ok_bind]
          cases fill_tables g p (max_jump_of (toInt64 (b - a))) partition_count.toNat 0
              env.seeded (alloc partition_count env.fresh_u64)
              (alloc partition_count env.fresh_ll) with
          | error e1 => simp [error_bind]
          | ok tables =>
            rw [ok_bind, ok_bind]
            cases walk g h p a b tables.1 tables.2.1
                (loop_bound_of_cpp env (toInt64 (b - a))).toNat power_gb b W 0 with
            | error e1 => simp [error_bind]
            | ok r => simp [ok_bind, returned]

/-- A value returned by `pollard_kangaroo` is the sentinel or passed the range
check and the verification. -/
theorem pollard_kangaroo_returned (env : Env) (g h p : Nat) (a b : Int) (s : KState) (r : Int)
    (hr : returned (pollard_kangaroo env g h p a b s) = some r) :
    r = -1 ∨ (a ≤ r ∧ r ≤ b ∧ r < 2 ^ 63 ∧ modexp g (toUInt64 r) p = .ok (h % p)) := by
  by_cases hab : a > b
  · simp [pollard_kangaroo, hab, returned] at hr
    exact Or.inl hr.symm
  · by_cases hiv : toInt64 (b - a) < 0
    · simp [pollard_kangaroo, hab, hiv, returned] at hr
      exact Or.inl hr.symm
    · rw [pollard_kangaroo_body env g h p a b s hab hiv] at hr
      cases hm : modexp g (toUInt64 b) p with
      | error e1 => simp [hm, error_bind, returned] at hr
      | ok power_gb =>
        rw [hm, ok_bind] at hr
        cases hu : umod h p with
        | error e1 => simp [hu, error_bind, returned] at hr
        | ok W =>
          rw [hu, ok_bind] at hr
          cases hf : fill_tables g p (max_jump_of (toInt64 (b - a))) partition_count.toNat 0
              env.seeded (alloc partition_count env.fresh_u64)
              (alloc partition_count env.fresh_ll) with
          | error e1 => simp [hf, error_bind, returned] at hr
          | ok tables =>
            rw [hf, ok_bind] at hr
            cases hw : walk g h p a b tables.1 tables.2.1
                (loop_bound_of env (toInt64 (b - a))).toNat power_gb b W 0 with
            | error e1 => simp [hw, error_bind, returned] at hr
            | ok r1 =>
              rw [hw, ok_bind] at hr
              simp only [returned, Option.some.injEq] at hr
              subst hr
              exact walk_result g h p a b _ _ _ _ _ _ _ _ hw

/-- With a non-zero modulus and a non-zero `(int)max_jump`, `pollard_kangaroo`
returns a value. -/
theorem pollard_kangaroo_total (env : Env) (g h p : Nat) (a b : Int) (s : KState)
    (hp : p ≠ 0) (hm : toInt32 (max_jump_of (toInt64 (b - a))) ≠ 0) :
    ∃ r, returned (pollard_kangaroo env g h p a b s) = some r := by
  by_cases hab : a > b
  · exact ⟨-1, by simp [pollard_kangaroo, hab, returned]⟩
  · by_cases hiv : toInt64 (b - a) < 0
    · exact ⟨-1, by simp [pollard_kangaroo, hab, hiv, returned]⟩
    · rw [pollard_kangaroo_body env g h p a b s hab hiv]
      obtain ⟨power_gb, h1⟩ := modexp_ok g (toUInt64 b) p hp
      rw [h1, ok_bind, umod_ok h p hp, ok_bind]
      obtain ⟨jt, et, h2⟩ := fill_tables_total g p _ hp hm partition_count.toNat 0 env.seeded
        (alloc partition_count env.fresh_u64) (alloc partition_count env.fresh_ll)
        (le_refl _) (by rw [alloc_length]; decide) (by rw [alloc_length, alloc_length])
      obtain ⟨l1, l2⟩ := fill_tables_length _ _ _ _ _ _ _ _ _ _ _ h2
      rw [alloc_length] at l1 l2
      rw [h2, ok_bind]
      obtain ⟨r, h3⟩ := walk_total g h p a b jt et hp l1 l2
        (loop_bound_of env (toInt64 (b - a))).toNat power_gb b (h % p) 0
      rw [h3, ok_bind]
      exact ⟨r, rfl⟩

/-- No run of `pollard_kangaroo` accesses a table outside its block. -/
theorem pollard_kangaroo_ne_oob (env : Env) (g h p : Nat) (a b : Int) (s : KState) :
    pollard_kangaroo env g h p a b s ≠ .error .out_of_bounds := by
  by_cases hab : a > b
  · simp [pollard_kangaroo, hab]
  · by_cases hiv : toInt64 (b - a) < 0
    · simp [pollard_kangaroo, hab, hiv]
    · rw [pollard_kangaroo_body env g h p a b s hab hiv]
      refine bind_ne_error _ _ _ (modexp_ne_oob _ _ _) (fun power_gb _ => ?_)
      refine bind_ne_error _ _ _ (umod_ne_oob _ _) (fun W _ => ?_)
      refine bind_ne_error _ _ _ (fill_tables_ne_oob g p _ _ _ _ _ _ (le_refl _)
        (by rw [alloc_length]; decide) (by rw [alloc_length, alloc_length]))
        (fun tables ht => ?_)
      obtain ⟨l1, l2⟩ := fill_tables_length _ _ _ _ _ _ _ _ _ _ _ ht
      rw [alloc_length] at l1 l2
      refine bind_ne_error _ _ _ (walk_ne_oob g h p a b _ _ l1 l2 _ _ _ _ _) (fun r _ => ?_)
      simp

/-! ## The step size for narrow ranges -/

/-- For a range narrower than `64 * (2 ^ 31 - 1)` the bound `max_jump` fits an `int`
and is at least one. -/
theorem max_jump_of_small (iv : Int) (h0 : 0 ≤ iv) (h1 : iv < 64 * (2 ^ 31 - 1)) :
    max_jump_of iv = iv / 64 + 1 ∧ 1 ≤ max_jump_of iv ∧ max_jump_of iv < 2 ^ 31 := by
  have h64 : toInt64 (2 * partition_count) = 64 := by decide
  have hd : Int.tdiv iv 64 = iv / 64 := Int.tdiv_eq_ediv h0 (by norm_num)
  have hq0 : 0 ≤ iv / 64 := Int.ediv_nonneg h0 (by norm_num)
  have hq1 : iv / 64 < 2 ^ 31 - 1 := by omega
  have hm : max_jump_of iv = iv / 64 + 1 := by
    unfold max_jump_of
    rw [h64, hd, toInt64_of_range _ (by omega) (by omega)]
  rw [hm]
  omega

/-- For a range narrower than `64 * (2 ^ 31 - 1)` the step size expression is
defined and lies in `[1, max_jump]`, for every value of `rand()`. -/
theorem step_size_bounds (r : Nat) (iv : Int) (h0 : 0 ≤ iv) (h1 : iv < 64 * (2 ^ 31 - 1)) :
    ∃ s_i, step_size r (max_jump_of iv) = .ok s_i ∧ 1 ≤ s_i ∧ s_i ≤ max_jump_of iv := by
  obtain ⟨_, hm1, hm2⟩ := max_jump_of_small iv h0 h1
  have hc : toInt32 (max_jump_of iv) = max_jump_of iv := toInt32_of_range _ (by omega) hm2
  have hne : toInt32 (max_jump_of iv) ≠ 0 := by rw [hc]; omega
  have hr0 : 0 ≤ Int.tmod (Int.ofNat r) (max_jump_of iv) :=
    Int.tmod_nonneg _ (Int.ofNat_nonneg r)
  have hr1 : Int.tmod (Int.ofNat r) (max_jump_of iv) < max_jump_of iv :=
    Int.tmod_lt_of_pos _ (by omega)
  refine ⟨_, step_size_ok r _ hne, ?_⟩
  rw [hc, toInt32_of_range _ (by omega) (by omega)]
  omega

/-! ## The claims -/

/-- A verified exponent: when `modexp` accepts `e` against `h % p`, then `g ^ e` is
congruent to `h` modulo `p`. -/
theorem verified_exponent (g h p e : Nat) (hp1 : 1 ≤ p) (hp : p < 2 ^ 64) (he : e < 2 ^ 64)
    (hv : modexp g e p = .ok (h % p)) : g ^ e % p = h % p := by
  rw [modexp_value g e p hp1 hp he] at hv
  simp only [Except.ok.injEq] at hv
  by_cases h0 : e = 0
  · rw [if_pos h0] at hv
    rw [h0, pow_zero, ← hv]
    by_cases h1 : p = 1
    · subst h1
      omega
    · exact Nat.mod_eq_of_lt (by omega)
  · rw [if_neg h0] at hv
    exact hv

/-- C1 (verification gate). For every `g`, `h`, every modulus `1 ≤ p < 2 ^ 64`, every
range, every stored state and every behaviour of the random source: a value `r`
other than the sentinel `-1` returned by `pollard_kangaroo` or by
`PollardKangaroo::solve` satisfies `g ^ r mod p = h mod p`, where the exponent is
`r` as the code passes it to `modexp` (`r` itself when it is non-negative). -/
theorem C1_verification_gate (env : Env) (g h p : Nat) (a b : Int) (s : KState) (r : Int)
    (hp1 : 1 ≤ p) (hp : p < 2 ^ 64)
    (hr : returned (pollard_kangaroo env g h p a b s) = some r ∨
      returned (solve env g h p a b s) = some r)
    (hne : r ≠ -1) :
    g ^ toUInt64 r % p = h % p ∧ (0 ≤ r → g ^ r.toNat % p = h % p) := by
  have hr1 : ∃ env1, returned (pollard_kangaroo env1 g h p a b s) = some r := by
    rcases hr with hr | hr
    · exact ⟨env, hr⟩
    · rw [(solve_matches env g h p a b s).1] at hr
      exact ⟨cpp_view env, hr⟩
  obtain ⟨env1, hr1⟩ := hr1
  rcases pollard_kangaroo_returned env1 g h p a b s r hr1 with h1 | ⟨_, _, hlt, hv⟩
  · exact absurd h1 hne
  · have key := verified_exponent g h p (toUInt64 r) hp1 hp (toUInt64_lt r) hv
    refine ⟨key, fun h0 => ?_⟩
    rw [← toUInt64_of_nonneg r h0 (by omega)]
    exact key

/-- Witness of C1: with `p = 7`, `g = 2`, `h = 2` and the range `[1, 1]` the C solver
returns `1`, and `2 ^ 1 mod 7 = 2 mod 7`. -/
theorem C1_verification_gate_witness :
    returned (pollard_kangaroo (const_env 0) 2 2 7 1 1 init_state) = some 1 ∧
      2 ^ 1 % 7 = 2 % 7 :=
  ⟨by decide,
    (C1_verification_gate (const_env 0) 2 2 7 1 1 init_state 1 (by decide) (by decide)
      (Or.inl (by decide)) (by decide)).2 (by decide)⟩

/-- C2 (result range). For every input, stored state and behaviour of the random
source, a value returned by `pollard_kangaroo` or by `PollardKangaroo::solve` is the
sentinel `-1` or lies in `[a, b]`; and a value is returned whenever the modulus and
`(int)max_jump` are non-zero. -/
theorem C2_result_range (env : Env) (g h p : Nat) (a b : Int) (s : KState) :
    (∀ r, returned (pollard_kangaroo env g h p a b s) = some r ∨
        returned (solve env g h p a b s) = some r → r = -1 ∨ (a ≤ r ∧ r ≤ b)) ∧
      (p ≠ 0 → toInt32 (max_jump_of (toInt64 (b - a))) ≠ 0 →
        (∃ r, returned (pollard_kangaroo env g h p a b s) = some r) ∧
          ∃ r, returned (solve env g h p a b s) = some r) := by
  constructor
  · intro r hr
    have hr1 : ∃ env1, returned (pollard_kangaroo env1 g h p a b s) = some r := by
      rcases hr with hr | hr
      · exact ⟨env, hr⟩
      · rw [(solve_matches env g h p a b s).1] at hr
        exact ⟨cpp_view env, hr⟩
    obtain ⟨env1, hr1⟩ := hr1
    rcases pollard_kangaroo_returned env1 g h p a b s r hr1 with h1 | ⟨h1, h2, _, _⟩
    · exact Or.inl h1
    · exact Or.inr ⟨h1, h2⟩
  · intro hp hm
    refine ⟨pollard_kangaroo_total env g h p a b s hp hm, ?_⟩
    rw [(solve_matches env g h p a b s).1]
    exact pollard_kangaroo_total (cpp_view env) g h p a b s hp hm

/-- Witness of C2: with `p = 3`, `g = 2`, `h = 2` and the range `[1, 1]` the C++
solver returns `1`, which lies in `[1, 1]`. -/
theorem C2_result_range_witness :
    returned (solve (const_env 0) 2 2 3 1 1 init_state) = some 1 ∧
      ((1 : Int) = -1 ∨ ((1 : Int) ≤ 1 ∧ (1 : Int) ≤ 1)) ∧
      (∃ r, returned (pollard_kangaroo (const_env 0) 2 2 3 1 1 init_state) = some r) :=
  ⟨by decide,
    (C2_result_range (const_env 0) 2 2 3 1 1 init_state).1 1 (Or.inr (by decide)),
    ((C2_result_range (const_env 0) 2 2 3 1 1 init_state).2 (by decide) (by decide)).1⟩

/-- C3 (modexp for a modulus above one). For every base `g`, every 64-bit exponent `e`
and every modulus `1 < p < 2 ^ 64`, `modexp` and `modexp_cpp` return exactly
`(g mod p) ^ e mod p`: the reductions modulo `2 ^ 128` and `2 ^ 64` written in the
loop never change a value. In particular the result for `e = 0` is `1 mod p`. -/
theorem C3_modexp_correct (g e p : Nat) (hp1 : 1 < p) (hp : p < 2 ^ 64) (he : e < 2 ^ 64) :
    modexp g e p = .ok ((g % p) ^ e % p) ∧ modexp_cpp g e p = .ok ((g % p) ^ e % p) ∧
      modexp g 0 p = .ok (1 % p) ∧ modexp_cpp g 0 p = .ok (1 % p) := by
  have h1 : modexp g e p = .ok ((g % p) ^ e % p) := by
    rw [modexp_value g e p (by omega) hp he, ← Nat.pow_mod]
    by_cases h0 : e = 0
    · rw [if_pos h0, h0, pow_zero, Nat.mod_eq_of_lt hp1]
    · rw [if_neg h0]
  have h2 : modexp g 0 p = .ok (1 % p) := by
    rw [modexp_value g 0 p (by omega) hp (by norm_num), if_pos rfl, Nat.mod_eq_of_lt hp1]
  refine ⟨h1, ?_, h2, ?_⟩
  · rw [modexp_cpp_eq]
    exact h1
  · rw [modexp_cpp_eq]
    exact h2

/-- Witness of C3: `modexp(2, 63, 467)`, the target of the demo, is `2 ^ 63 mod 467`. -/
theorem C3_modexp_correct_witness :
    modexp 2 63 467 = .ok ((2 % 467) ^ 63 % 467) ∧
      modexp_cpp 2 63 467 = .ok ((2 % 467) ^ 63 % 467) ∧
      modexp 2 0 467 = .ok (1 % 467) ∧ modexp_cpp 2 0 467 = .ok (1 % 467) :=
  C3_modexp_correct 2 63 467 (by decide) (by decide) (by decide)

/-- C4 (modexp at modulus one). For the modulus `1` and the exponent `0` both
`modexp` and `modexp_cpp` return `1` for every base, while `base ^ 0 mod 1` is `0`:
the initial `result = 1` is returned without being reduced. -/
theorem C4_modexp_modulus_one (base : Nat) :
    modexp base 0 1 = .ok 1 ∧ modexp_cpp base 0 1 = .ok 1 ∧ base ^ 0 % 1 = 0 := by
  refine ⟨rfl, rfl, ?_⟩
  simp

/-- C5 (invalid range). For every `g`, `h`, `p` (zero included) and every `a > b`, both
solvers return the sentinel `-1` and hand back the stored state untouched: the
tables and the state of the random source are those of the call. No fault is
possible, so no remainder modulo `p` was taken. -/
theorem C5_invalid_range (env : Env) (g h p : Nat) (a b : Int) (s : KState) (hab : a > b) :
    pollard_kangaroo env g h p a b s = .ok (-1, s) ∧ solve env g h p a b s = .ok (-1, s) := by
  constructor
  · unfold pollard_kangaroo
    rw [if_pos hab]
  · unfold solve
    rw [if_pos hab]

/-- Witness of C5: the range `[3, 1]` with the modulus `0`. -/
theorem C5_invalid_range_witness :
    pollard_kangaroo (const_env 0) 2 5 0 3 1 init_state = .ok (-1, init_state) ∧
      solve (const_env 0) 2 5 0 3 1 init_state = .ok (-1, init_state) :=
  C5_invalid_range (const_env 0) 2 5 0 3 1 init_state (by decide)

/-- Counterexample of C6: `x = 4` lies outside `[1, 1]` and `h = 2 ^ 4 mod 7`, yet
the solver returns `1` and not the sentinel, because `2 ^ 1 mod 7 = 2 ^ 4 mod 7`. -/
theorem C6_range_rejection_counterexample :
    ¬ ((1 : Int) ≤ 4 ∧ (4 : Int) ≤ 1) ∧
      returned (pollard_kangaroo (const_env 0) 2 (2 ^ 4 % 7) 7 1 1 init_state) = some 1 ∧
      returned (pollard_kangaroo (const_env 0) 2 (2 ^ 4 % 7) 7 1 1 init_state) ≠ some (-1) := by
  decide

/-- C6 (range rejection, amended). For every `g`, `h`, every modulus `1 ≤ p < 2 ^ 64`,
every range, stored state and behaviour of the random source: when no exponent `x`
of `[a, b]` satisfies `g ^ x mod p = h mod p` (a negative `x` read as the code passes
it to `modexp`), every value returned by either solver is the sentinel `-1`; and the
sentinel is returned whenever `(int)max_jump` is non-zero. -/
theorem C6_no_exponent_in_range (env : Env) (g h p : Nat) (a b : Int) (s : KState)
    (hp1 : 1 ≤ p) (hp : p < 2 ^ 64)
    (hno : ∀ x : Int, a ≤ x → x ≤ b → g ^ toUInt64 x % p ≠ h % p) :
    (∀ r, returned (pollard_kangaroo env g h p a b s) = some r ∨
        returned (solve env g h p a b s) = some r → r = -1) ∧
      (toInt32 (max_jump_of (toInt64 (b - a))) ≠ 0 →
        returned (pollard_kangaroo env g h p a b s) = some (-1) ∧
          returned (solve env g h p a b s) = some (-1)) := by
  have key : ∀ (env1 : Env) (r : Int),
      returned (pollard_kangaroo env1 g h p a b s) = some r → r = -1 := by
    intro env1 r hr
    rcases pollard_kangaroo_returned env1 g h p a b s r hr with h1 | ⟨h1, h2, _, hv⟩
    · exact h1
    · exact absurd (verified_exponent g h p (toUInt64 r) hp1 hp (toUInt64_lt r) hv)
        (hno r h1 h2)
  constructor
  · intro r hr
    rcases hr with hr | hr
    · exact key env r hr
    · rw [(solve_matches env g h p a b s).1] at hr
      exact key (cpp_view env) r hr
  · intro hm
    have h1 : ∀ env1 : Env, returned (pollard_kangaroo env1 g h p a b s) = some (-1) := by
      intro env1
      obtain ⟨r, hr⟩ := pollard_kangaroo_total env1 g h p a b s (by omega) hm
      rw [hr, key env1 r hr]
    refine ⟨h1 env, ?_⟩
    rw [(solve_matches env g h p a b s).1]
    exact h1 (cpp_view env)

/-- Witness of C6: `p = 7`, `g = 2`, `h = 1` and the range `[1, 2]`; the powers
`2 ^ 1` and `2 ^ 2` are `2` and `4` modulo `7`, and both solvers return `-1`. -/
theorem C6_no_exponent_in_range_witness :
    returned (pollard_kangaroo (const_env 5) 2 1 7 1 2 init_state) = some (-1) ∧
      returned (solve (const_env 5) 2 1 7 1 2 init_state) = some (-1) :=
  (C6_no_exponent_in_range (const_env 5) 2 1 7 1 2 init_state (by decide) (by decide)
    (fun x h1 h2 => by interval_cases x <;> decide)).2 (by decide)

/-- The only exponent of `[20, 100]` that `modexp` accepts against `2 ^ 63 mod 467`
is `63`. -/
theorem demo_exponent_unique (r : Int) (h1 : 20 ≤ r) (h2 : r ≤ 100)
    (hv : modexp 2 (toUInt64 r) 467 = .ok (2 ^ 63 % 467 % 467)) : r = 63 := by
  have hv2 : modexp_loop 64 1 (2 % 467) (toUInt64 r) 467 = 2 ^ 63 % 467 % 467 := by
    have h467 : ¬ (467 = 0) := by decide
    simp only [modexp, h467, if_false, Except.ok.injEq] at hv
    exact hv
  clear hv
  interval_cases r <;> first | rfl | (exfalso; revert hv2; decide)

/-- C8 (the out-of-range instance). With `p = 467`, `g = 2`, `a = 20`, `b = 30` and
`h = 2 ^ 63 mod 467`, both solvers return the sentinel `-1`, for every stored state
and every behaviour of the random source. -/
theorem C8_out_of_range_scenario (env : Env) (s : KState) :
    returned (pollard_kangaroo env 2 (2 ^ 63 % 467) 467 20 30 s) = some (-1) ∧
      returned (solve env 2 (2 ^ 63 % 467) 467 20 30 s) = some (-1) := by
  have key : ∀ env1 : Env,
      returned (pollard_kangaroo env1 2 (2 ^ 63 % 467) 467 20 30 s) = some (-1) := by
    intro env1
    obtain ⟨r, hr⟩ := pollard_kangaroo_total env1 2 (2 ^ 63 % 467) 467 20 30 s
      (by decide) (by decide)
    rcases pollard_kangaroo_returned env1 2 (2 ^ 63 % 467) 467 20 30 s r hr with
      h1 | ⟨h1, h2, _, hv⟩
    · rw [hr, h1]
    · have h63 : r = 63 := demo_exponent_unique r h1 (by omega) hv
      omega
  refine ⟨key env, ?_⟩
  rw [(solve_matches env 2 (2 ^ 63 % 467) 467 20 30 s).1]
  exact key (cpp_view env)

/-- C9 (step bound at a wide range). For the range `[0, 64 * (2 ^ 32 - 1)]` the value
of `max_jump` is `2 ^ 32`, its cast to `int` is `0`, and the step size expression
`1 + rand() % (int)max_jump` divides by zero for every value of `rand()`: neither
solver returns a value. -/
theorem C9_step_size_undefined :
    max_jump_of (toInt64 (274877906880 - 0)) = 4294967296 ∧
      toInt32 (max_jump_of (toInt64 (274877906880 - 0))) = 0 ∧
      (∀ r, step_size r (max_jump_of (toInt64 (274877906880 - 0))) = .error .div_by_zero) ∧
      returned (pollard_kangaroo (const_env 0) 2 (2 ^ 63 % 467) 467 0 274877906880 init_state)
        = none ∧
      returned (solve (const_env 0) 2 (2 ^ 63 % 467) 467 0 274877906880 init_state) = none := by
  refine ⟨by decide, by decide, fun r => ?_, by decide, by decide⟩
  have h0 : toInt32 (max_jump_of (toInt64 (274877906880 - 0))) = 0 := by decide
  simp only [step_size, h0, if_true]

/-- C10 (partition function). For every position `x`, `partition(x)` is `x mod 32`
in both renderings and lies in `[0, 32)`; and no run of either solver reads or
writes a table outside its block of `partition_count` cells. -/
theorem C10_partition_bounds (x : Nat) :
    partition x = Int.ofNat (x % 32) ∧ partition_cpp x = Int.ofNat (x % 32) ∧
      0 ≤ partition x ∧ partition x < partition_count ∧
      (∀ (env : Env) (g h p : Nat) (a b : Int) (s : KState),
        pollard_kangaroo env g h p a b s ≠ .error .out_of_bounds ∧
          solve env g h p a b s ≠ .error .out_of_bounds) := by
  have hlt : x % 32 < 32 := Nat.mod_lt _ (by norm_num)
  refine ⟨partition_eq_mod x, ?_, ?_, ?_, ?_⟩
  · rw [partition_cpp_eq]
    exact partition_eq_mod x
  · rw [partition_eq_mod]
    simp only [Int.ofNat_eq_coe]
    omega
  · rw [partition_eq_mod]
    simp only [Int.ofNat_eq_coe, partition_count]
    omega
  · intro env g h p a b s
    refine ⟨pollard_kangaroo_ne_oob env g h p a b s, fun hc => ?_⟩
    exact pollard_kangaroo_ne_oob (cpp_view env) g h p a b s
      (((solve_matches env g h p a b s).2 _).mp hc)

/-! ## Iterations of the walk -/
/-- One iteration of the walk loop: the two updates, then the collision test. -/
theorem walk_succ (g h p : Nat) (a b : Int) (jt : List Nat) (et : List Int) (n T : Nat)
    (T_exp : Int) (W : Nat) (W_exp : Int) :
    walk g h p a b jt et (n + 1) T T_exp W W_exp =
      (walk_step p jt et { T := T, T_exp := T_exp, W := W, W_exp := W_exp } >>= fun k =>
        if k.T = k.W then resolve g h p a b k.T_exp
        else walk g h p a b jt et n k.T k.T_exp k.W k.W_exp) := by
  rw [walk]
  simp only [walk_step, hop, resolve, bind_assoc]
  apply bind_congr; intro jv_t
  apply bind_congr; intro T1
  apply bind_congr; intro s_t
  rw [ok_bind]
  apply bind_congr; intro jv_w
  apply bind_congr; intro W1
  apply bind_congr; intro s_w
  rw [ok_bind, ok_bind]

theorem lookup_partition_getD {α : Type} (tbl : List α) (hlen : tbl.length = 32) (x : Nat)
    (d : α) : lookup tbl (partition x) = .ok (tbl.getD (x % 32) d) := by
  have hlt : x % 32 < tbl.length := by rw [hlen]; exact Nat.mod_lt _ (by norm_num)
  rw [partition_eq_mod]
  have hneg : ¬ (Int.ofNat (x % 32) < 0) := by
    simp only [Int.ofNat_eq_coe]; omega
  have ht : (Int.ofNat (x % 32)).toNat = x % 32 := rfl
  simp only [lookup, hneg, if_false, ht]
  rw [List.getElem?_eq_getElem hlt, List.getD_eq_getElem _ _ hlt]

/-- A jump with a non-zero modulus and full tables: the position is multiplied by the
jump value of its partition, the step size is the entry of the same partition. -/
theorem hop_ok (p : Nat) (jt : List Nat) (et : List Int) (hp : p ≠ 0)
    (hjt : jt.length = 32) (het : et.length = 32) (x : Nat) :
    hop p jt et x =
      .ok (((x * jt.getD (x % 32) 0) % 2 ^ 128 % p) % 2 ^ 64, et.getD (x % 32) 0) := by
  unfold hop
  dsimp only
  rw [lookup_partition_getD jt hjt x 0, ok_bind, umulmod_ok _ _ _ hp, ok_bind,
    lookup_partition_getD et het x 0, ok_bind]

theorem walk_step_ok (p : Nat) (jt : List Nat) (et : List Int) (hp : p ≠ 0)
    (hjt : jt.length = 32) (het : et.length = 32) (k : Kangaroos) :
    walk_step p jt et k =
      .ok { T := ((k.T * jt.getD (k.T % 32) 0) % 2 ^ 128 % p) % 2 ^ 64,
            T_exp := toInt64 (k.T_exp - et.getD (k.T % 32) 0),
            W := ((k.W * jt.getD (k.W % 32) 0) % 2 ^ 128 % p) % 2 ^ 64,
            W_exp := toInt64 (k.W_exp + et.getD (k.W % 32) 0) } := by
  unfold walk_step
  rw [hop_ok p jt et hp hjt het, ok_bind, hop_ok p jt et hp hjt het, ok_bind]

theorem walk_state_zero (p : Nat) (jt : List Nat) (et : List Int) (k : Kangaroos) :
    walk_state p jt et 0 k = .ok k := rfl

theorem walk_state_succ (p : Nat) (jt : List Nat) (et : List Int) (n : Nat) (k : Kangaroos) :
    walk_state p jt et (n + 1) k =
      (walk_step p jt et k >>= fun k1 => walk_state p jt et n k1) := rfl

/-- With a non-zero modulus and full tables every number of iterations is defined. -/
theorem walk_state_total (p : Nat) (jt : List Nat) (et : List Int) (hp : p ≠ 0)
    (hjt : jt.length = 32) (het : et.length = 32) :
    ∀ (n : Nat) (k : Kangaroos), ∃ kn, walk_state p jt et n k = .ok kn := by
  intro n
  induction n with
  | zero => intro k; exact ⟨k, rfl⟩
  | succ n ih =>
    intro k
    rw [walk_state_succ, walk_step_ok p jt et hp hjt het, ok_bind]
    exact ih _

/-- The state after `n + 1` iterations is one more iteration after the state after `n`. -/
theorem walk_state_succ_last (p : Nat) (jt : List Nat) (et : List Int) :
    ∀ (n : Nat) (k : Kangaroos),
      walk_state p jt et (n + 1) k =
        (walk_state p jt et n k >>= fun kn => walk_step p jt et kn) := by
  intro n
  induction n with
  | zero =>
    intro k
    rw [walk_state_succ, walk_state_zero, ok_bind]
    cases walk_step p jt et k with
    | error e => rw [error_bind]
    | ok k1 => rw [ok_bind, walk_state_zero]
  | succ n ih =>
    intro k
    rw [walk_state_succ p jt et (n + 1) k, walk_state_succ p jt et n k]
    cases walk_step p jt et k with
    | error e => rw [error_bind, error_bind, error_bind]
    | ok k1 =>
      rw [ok_bind, ok_bind]
      exact ih k1

/-- The loop returns at the first iteration whose two updates make the positions equal,
with the verdict of the collision branch for the tame offset reached there. -/
theorem walk_first_collision (g h p : Nat) (a b : Int) (jt : List Nat) (et : List Int) :
    ∀ (n m : Nat) (k0 km : Kangaroos), m < n →
      walk_state p jt et (m + 1) k0 = .ok km → km.T = km.W →
      (∀ j kj, j < m → walk_state p jt et (j + 1) k0 = .ok kj → kj.T ≠ kj.W) →
      walk g h p a b jt et n k0.T k0.T_exp k0.W k0.W_exp = resolve g h p a b km.T_exp := by
  intro n
  induction n with
  | zero => intro m k0 km hm; omega
  | succ n ih =>
    intro m k0 km hm hst hcol hfirst
    rw [walk_succ]
    rw [walk_state_succ] at hst
    obtain ⟨k1, h1, hrest⟩ := (bind_eq_ok _ _ _).mp hst
    have hk0 : ({ T := k0.T, T_exp := k0.T_exp, W := k0.W, W_exp := k0.W_exp } : Kangaroos)
        = k0 := rfl
    rw [hk0, h1, ok_bind]
    cases m with
    | zero =>
      rw [walk_state_zero] at hrest
      simp only [Except.ok.injEq] at hrest
      subst hrest
      rw [if_pos hcol]
    | succ m =>
      have hne : k1.T ≠ k1.W := by
        apply hfirst 0 k1 (by omega)
        rw [walk_state_succ, h1, ok_bind, walk_state_zero]
      rw [if_neg hne]
      apply ih m k1 km (by omega) hrest hcol
      intro j kj hj hkj
      apply hfirst (j + 1) kj (by omega)
      rw [walk_state_succ, h1, ok_bind]
      exact hkj

/-- Without a collision in the first `n` iterations the loop ends and the function
returns the sentinel. -/
theorem walk_no_collision (g h p : Nat) (a b : Int) (jt : List Nat) (et : List Int)
    (hp : p ≠ 0) (hjt : jt.length = 32) (het : et.length = 32) :
    ∀ (n : Nat) (k0 : Kangaroos),
      (∀ j kj, j < n → walk_state p jt et (j + 1) k0 = .ok kj → kj.T ≠ kj.W) →
      walk g h p a b jt et n k0.T k0.T_exp k0.W k0.W_exp = .ok (-1) := by
  intro n
  induction n with
  | zero => intro k0 _; rw [walk]
  | succ n ih =>
    intro k0 hfirst
    rw [walk_succ]
    have hk0 : ({ T := k0.T, T_exp := k0.T_exp, W := k0.W, W_exp := k0.W_exp } : Kangaroos)
        = k0 := rfl
    obtain ⟨k1, h1⟩ : ∃ k1, walk_step p jt et k0 = .ok k1 :=
      ⟨_, walk_step_ok p jt et hp hjt het k0⟩
    rw [hk0, h1, ok_bind]
    have hne : k1.T ≠ k1.W := by
      apply hfirst 0 k1 (by omega)
      rw [walk_state_succ, h1, ok_bind, walk_state_zero]
    rw [if_neg hne]
    apply ih k1
    intro j kj hj hkj
    apply hfirst (j + 1) kj (by omega)
    rw [walk_state_succ, h1, ok_bind]
    exact hkj

/-- A value other than the sentinel leaves the loop at a first collision, and is the
candidate `b - T_exp` computed there. -/
theorem walk_returns_candidate (g h p : Nat) (a b : Int) (jt : List Nat) (et : List Int) :
    ∀ (n : Nat) (k0 : Kangaroos) (r : Int),
      walk g h p a b jt et n k0.T k0.T_exp k0.W k0.W_exp = .ok r → r ≠ -1 →
      ∃ m km, m < n ∧ walk_state p jt et (m + 1) k0 = .ok km ∧ km.T = km.W ∧
        r = toInt64 (b - km.T_exp) := by
  intro n
  induction n with
  | zero =>
    intro k0 r hr hne
    rw [walk] at hr
    simp only [Except.ok.injEq] at hr
    exact absurd hr.symm hne
  | succ n ih =>
    intro k0 r hr hne
    rw [walk_succ] at hr
    have hk0 : ({ T := k0.T, T_exp := k0.T_exp, W := k0.W, W_exp := k0.W_exp } : Kangaroos)
        = k0 := rfl
    rw [hk0] at hr
    obtain ⟨k1, h1, hr1⟩ := (bind_eq_ok _ _ _).mp hr
    by_cases hcol : k1.T = k1.W
    · rw [if_pos hcol] at hr1
      refine ⟨0, k1, by omega, ?_, hcol, ?_⟩
      · rw [walk_state_succ, h1, ok_bind, walk_state_zero]
      · unfold resolve at hr1
        dsimp only at hr1
        split at hr1
        · obtain ⟨c, _, hr2⟩ := (bind_eq_ok _ _ _).mp hr1
          obtain ⟨hpv, _, hr3⟩ := (bind_eq_ok _ _ _).mp hr2
          split at hr3
          · simp only [Except.ok.injEq] at hr3
            exact hr3.symm
          · simp only [Except.ok.injEq] at hr3
            exact absurd hr3.symm hne
        · simp only [Except.ok.injEq] at hr1
          exact absurd hr1.symm hne
    · rw [if_neg hcol] at hr1
      obtain ⟨m, km, hm, hst, hc, hrr⟩ := ih k1 r hr1 hne
      refine ⟨m + 1, km, by omega, ?_, hc, hrr⟩
      rw [walk_state_succ, h1, ok_bind]
      exact hst

/-! ## Distances travelled -/
theorem toInt64_sub_wrap (x y : Int) : toInt64 (toInt64 x - y) = toInt64 (x - y) := by
  unfold toInt64
  omega

theorem toInt64_add_wrap (x y : Int) : toInt64 (toInt64 x + y) = toInt64 (x + y) := by
  unfold toInt64
  omega

theorem toInt64_candidate (b d : Int) : toInt64 (b - toInt64 (b - d)) = toInt64 d := by
  unfold toInt64
  omega

theorem trek_zero (p : Nat) (jt : List Nat) (et : List Int) (x : Nat) :
    trek p jt et 0 x = .ok (x, 0) := rfl

theorem trek_succ (p : Nat) (jt : List Nat) (et : List Int) (hp : p ≠ 0)
    (hjt : jt.length = 32) (het : et.length = 32) (n x : Nat) :
    trek p jt et (n + 1) x =
      (trek p jt et n (((x * jt.getD (x % 32) 0) % 2 ^ 128 % p) % 2 ^ 64) >>= fun rest =>
        .ok (rest.1, et.getD (x % 32) 0 + rest.2)) := by
  rw [trek, hop_ok p jt et hp hjt het, ok_bind]

theorem trek_total (p : Nat) (jt : List Nat) (et : List Int) (hp : p ≠ 0)
    (hjt : jt.length = 32) (het : et.length = 32) :
    ∀ (n x : Nat), ∃ y d, trek p jt et n x = .ok (y, d) := by
  intro n
  induction n with
  | zero => intro x; exact ⟨x, 0, rfl⟩
  | succ n ih =>
    intro x
    rw [trek_succ p jt et hp hjt het]
    obtain ⟨y, d, hyd⟩ := ih (((x * jt.getD (x % 32) 0) % 2 ^ 128 % p) % 2 ^ 64)
    rw [hyd, ok_bind]
    exact ⟨_, _, rfl⟩

/-- The variables after `n` iterations, in terms of the two separate treks: the tame
offset is the start offset minus the tame distance, the wild offset the start offset
plus the wild distance, both wrapped to `long long` (before the first iteration the
start offsets are assumed to be `long long` values). -/
theorem walk_state_trek (p : Nat) (jt : List Nat) (et : List Int) (hp : p ≠ 0)
    (hjt : jt.length = 32) (het : et.length = 32) :
    ∀ (n : Nat) (k0 kn : Kangaroos), walk_state p jt et n k0 = .ok kn →
      ∃ dT dW, trek p jt et n k0.T = .ok (kn.T, dT) ∧ trek p jt et n k0.W = .ok (kn.W, dW) ∧
        (0 < n ∨ toInt64 k0.T_exp = k0.T_exp → kn.T_exp = toInt64 (k0.T_exp - dT)) ∧
        (0 < n ∨ toInt64 k0.W_exp = k0.W_exp → kn.W_exp = toInt64 (k0.W_exp + dW)) := by
  intro n
  induction n with
  | zero =>
    intro k0 kn hst
    rw [walk_state_zero] at hst
    simp only [Except.ok.injEq] at hst
    subst hst
    refine ⟨0, 0, rfl, rfl, fun hT => ?_, fun hW => ?_⟩
    · rcases hT with hT | hT
      · omega
      · rw [sub_zero, hT]
    · rcases hW with hW | hW
      · omega
      · rw [add_zero, hW]
  | succ n ih =>
    intro k0 kn hst
    rw [walk_state_succ, walk_step_ok p jt et hp hjt het, ok_bind] at hst
    obtain ⟨dT, dW, h1, h2, h3, h4⟩ := ih _ kn hst
    dsimp only at h1 h2 h3 h4
    have h3b := h3 (Or.inr (by unfold toInt64; omega))
    have h4b := h4 (Or.inr (by unfold toInt64; omega))
    refine ⟨et.getD (k0.T % 32) 0 + dT, et.getD (k0.W % 32) 0 + dW, ?_, ?_, fun _ => ?_,
      fun _ => ?_⟩
    · rw [trek_succ p jt et hp hjt het, h1, ok_bind]
    · rw [trek_succ p jt et hp hjt het, h2, ok_bind]
    · rw [h3b, toInt64_sub_wrap, sub_sub]
    · rw [h4b, toInt64_add_wrap, add_assoc]

/-- Under the jump relation a trek multiplies the position by the power of `g` given
by the distance travelled. -/
theorem trek_power (g p : Nat) (jt : List Nat) (et : List Int) (hp0 : 0 < p)
    (hp : p < 2 ^ 64) (hrel : jump_relation g p jt et) :
    ∀ (n x y : Nat) (d : Int), x < 2 ^ 64 → trek p jt et n x = .ok (y, d) →
      0 ≤ d ∧ (n = 0 → y = x ∧ d = 0) ∧ (0 < n → y = x * g ^ d.toNat % p) := by
  obtain ⟨hjt, het, hent⟩ := hrel
  have hpne : p ≠ 0 := by omega
  intro n
  induction n with
  | zero =>
    intro x y d _ ht
    rw [trek_zero] at ht
    simp only [Except.ok.injEq, Prod.mk.injEq] at ht
    refine ⟨by omega, fun _ => ⟨ht.1.symm, ht.2.symm⟩, fun h => by omega⟩
  | succ n ih =>
    intro x y d hx ht
    rw [trek_succ p jt et hpne hjt het] at ht
    obtain ⟨rest, hrest, hyd⟩ := (bind_eq_ok _ _ _).mp ht
    simp only [Except.ok.injEq, Prod.mk.injEq] at hyd
    obtain ⟨hs0, hjv⟩ := hent (x % 32) (Nat.mod_lt _ (by norm_num))
    have hjv64 : jt.getD (x % 32) 0 < 2 ^ 64 := by
      rw [hjv]
      exact lt_trans (Nat.mod_lt _ hp0) hp
    have hx1 : ((x * jt.getD (x % 32) 0) % 2 ^ 128 % p) % 2 ^ 64 =
        x * g ^ (et.getD (x % 32) 0).toNat % p := by
      rw [wide_mul_mod x _ p hp0 hp hx hjv64, hjv, Nat.mul_mod, Nat.mod_mod, ← Nat.mul_mod]
    rw [hx1] at hrest
    have hx1lt : x * g ^ (et.getD (x % 32) 0).toNat % p < 2 ^ 64 :=
      lt_trans (Nat.mod_lt _ hp0) hp
    obtain ⟨hd0, hzero, hpos⟩ := ih _ rest.1 rest.2 hx1lt hrest
    have hd : d = et.getD (x % 32) 0 + rest.2 := hyd.2.symm
    have hy : y = rest.1 := hyd.1.symm
    refine ⟨by omega, fun h => by omega, fun _ => ?_⟩
    have hsum : d.toNat = (et.getD (x % 32) 0).toNat + rest.2.toNat := by omega
    rw [hy, hsum, pow_add]
    by_cases hn : n = 0
    · obtain ⟨h1, h2⟩ := hzero hn
      rw [h1, h2]
      simp
    · rw [hpos (Nat.pos_of_ne_zero hn), ← mul_assoc]
      exact Nat.ModEq.mul_right _ (Nat.mod_modEq _ _)

/-- With every step size in `[1, m]` a trek of `n` jumps covers a distance in
`[n, n * m]`. -/
theorem trek_distance (p : Nat) (jt : List Nat) (et : List Int) (m : Int) (hp : p ≠ 0)
    (hjt : jt.length = 32) (het : et.length = 32)
    (hstep : ∀ i, i < 32 → 1 ≤ et.getD i 0 ∧ et.getD i 0 ≤ m) :
    ∀ (n x y : Nat) (d : Int), trek p jt et n x = .ok (y, d) →
      (n : Int) ≤ d ∧ d ≤ n * m := by
  intro n
  induction n with
  | zero =>
    intro x y d ht
    rw [trek_zero] at ht
    simp only [Except.ok.injEq, Prod.mk.injEq] at ht
    rw [← ht.2]
    simp
  | succ n ih =>
    intro x y d ht
    rw [trek_succ p jt et hp hjt het] at ht
    obtain ⟨rest, hrest, hyd⟩ := (bind_eq_ok _ _ _).mp ht
    simp only [Except.ok.injEq, Prod.mk.injEq] at hyd
    obtain ⟨h1, h2⟩ := hstep (x % 32) (Nat.mod_lt _ (by norm_num))
    obtain ⟨h3, h4⟩ := ih _ rest.1 rest.2 hrest
    rw [← hyd.2]
    push_cast
    constructor
    · omega
    · nlinarith

/-! ## Contents of the tables -/
theorem getD_set {α : Type} (l : List α) (i j : Nat) (v d : α) :
    (l.set i v).getD j d = if i = j ∧ i < l.length then v else l.getD j d := by
  rw [List.getD_eq_getElem?_getD, List.getD_eq_getElem?_getD, List.getElem?_set]
  by_cases hij : i = j
  · subst hij
    by_cases hlt : i < l.length
    · simp [hlt]
    · have hnone : l[i]? = none := by
        rw [List.getElem?_eq_none_iff]
        omega
      simp [hlt, hnone]
  · simp [hij]

theorem store_eq_ok {α : Type} (tbl t : List α) (i : Int) (v : α)
    (h : store tbl i v = .ok t) : 0 ≤ i ∧ i.toNat < tbl.length ∧ t = tbl.set i.toNat v := by
  unfold store at h
  split at h
  · simp at h
  · split at h
    · simp only [Except.ok.injEq] at h
      exact ⟨by omega, by assumption, h.symm⟩
    · simp at h

/-- What the table loop leaves in the two blocks: the cells below `i` are untouched,
and cell `j` of the `n` cells from `i` on holds the step size drawn from the
generator at its turn and the power `modexp(g, step, p)`. -/
theorem fill_tables_spec (g p : Nat) (max_jump : Int) :
    ∀ (n : Nat) (i : Int) (rs : Nat → Nat) (jt : List Nat) (et : List Int)
      (jt1 : List Nat) (et1 : List Int) (rs1 : Nat → Nat),
      0 ≤ i → fill_tables g p max_jump n i rs jt et = .ok (jt1, et1, rs1) →
        (∀ j, j < i.toNat → jt1.getD j 0 = jt.getD j 0 ∧ et1.getD j 0 = et.getD j 0) ∧
        (∀ j, i.toNat ≤ j → j < i.toNat + n →
          step_size (rs (j - i.toNat)) max_jump = .ok (et1.getD j 0) ∧
            modexp g (toUInt64 (et1.getD j 0)) p = .ok (jt1.getD j 0)) := by
  intro n
  induction n with
  | zero =>
    intro i rs jt et jt1 et1 rs1 _ h
    rw [fill_tables] at h
    simp only [Except.ok.injEq, Prod.mk.injEq] at h
    obtain ⟨h1, h2, _⟩ := h
    subst h1 h2
    exact ⟨fun j _ => ⟨rfl, rfl⟩, fun j h1 h2 => by omega⟩
  | succ n ih =>
    intro i rs jt et jt1 et1 rs1 h0 h
    rw [fill_tables] at h
    obtain ⟨s_i, hs, h2⟩ := (bind_eq_ok _ _ _).mp h
    obtain ⟨jv, hjv, h3⟩ := (bind_eq_ok _ _ _).mp h2
    obtain ⟨jt2, hj, h4⟩ := (bind_eq_ok _ _ _).mp h3
    obtain ⟨et2, he, h5⟩ := (bind_eq_ok _ _ _).mp h4
    obtain ⟨_, hji, hjt2⟩ := store_eq_ok _ _ _ _ hj
    obtain ⟨_, hei, het2⟩ := store_eq_ok _ _ _ _ he
    obtain ⟨hlow, hhigh⟩ := ih (i + 1) _ jt2 et2 jt1 et1 rs1 (by omega) h5
    have hi1 : (i + 1).toNat = i.toNat + 1 := by omega
    constructor
    · intro j hj
      obtain ⟨l1, l2⟩ := hlow j (by omega)
      rw [l1, l2, hjt2, het2, getD_set, getD_set]
      have hne : ¬ (i.toNat = j ∧ i.toNat < jt.length) := by omega
      have hne2 : ¬ (i.toNat = j ∧ i.toNat < et.length) := by omega
      rw [if_neg hne, if_neg hne2]
      exact ⟨rfl, rfl⟩
    · intro j hj1 hj2
      by_cases hij : j = i.toNat
      · obtain ⟨l1, l2⟩ := hlow j (by omega)
        rw [l1, l2, hjt2, het2, getD_set, getD_set]
        have hy : i.toNat = j ∧ i.toNat < jt.length := ⟨hij.symm, hji⟩
        have hy2 : i.toNat = j ∧ i.toNat < et.length := ⟨hij.symm, hei⟩
        rw [if_pos hy, if_pos hy2, hij, Nat.sub_self]
        exact ⟨hs, hjv⟩
      · have := hhigh j (by omega) (by omega)
        have hidx : j - (i + 1).toNat + 1 = j - i.toNat := by omega
        rw [hidx] at this
        exact this

/-- The tables a call builds: both have `partition_count` cells, and cell `j` holds the
step size computed from the `j`-th value of the generator and its power of `g`. -/
theorem built_tables_spec (env : Env) (g p : Nat) (a b : Int) (jt : List Nat) (et : List Int)
    (rs : Nat → Nat) (h : built_tables env g p a b = .ok (jt, et, rs)) :
    jt.length = 32 ∧ et.length = 32 ∧
      ∀ j, j < 32 →
        step_size (env.seeded j) (max_jump_of (toInt64 (b - a))) = .ok (et.getD j 0) ∧
          modexp g (toUInt64 (et.getD j 0)) p = .ok (jt.getD j 0) := by
  unfold built_tables at h
  obtain ⟨l1, l2⟩ := fill_tables_length _ _ _ _ _ _ _ _ _ _ _ h
  rw [alloc_length] at l1 l2
  refine ⟨l1, l2, fun j hj => ?_⟩
  have := (fill_tables_spec g p _ _ _ _ _ _ _ _ _ (le_refl 0) h).2 j (by simp)
    (by simp [partition_count]; omega)
  simpa using this

/-- The table loop overwrites every cell from `i` on: two runs that start from blocks of
the same size which agree below `i` end in the same result. -/
theorem fill_tables_indep (g p : Nat) (max_jump : Int) :
    ∀ (n : Nat) (i : Int) (rs : Nat → Nat) (jt : List Nat) (et : List Int)
      (jt2 : List Nat) (et2 : List Int),
      0 ≤ i → jt2.length = jt.length → et2.length = et.length → et.length = jt.length →
      i.toNat + n = jt.length →
      (∀ j, j < i.toNat → jt[j]? = jt2[j]? ∧ et[j]? = et2[j]?) →
      fill_tables g p max_jump n i rs jt et = fill_tables g p max_jump n i rs jt2 et2 := by
  intro n
  induction n with
  | zero =>
    intro i rs jt et jt2 et2 h0 hl1 hl2 hl3 hn hagree
    have hjt : jt = jt2 := by
      apply List.ext_getElem?
      intro j
      by_cases hj : j < i.toNat
      · exact (hagree j hj).1
      · rw [List.getElem?_eq_none_iff.mpr (by omega), List.getElem?_eq_none_iff.mpr (by omega)]
    have het : et = et2 := by
      apply List.ext_getElem?
      intro j
      by_cases hj : j < i.toNat
      · exact (hagree j hj).2
      · rw [List.getElem?_eq_none_iff.mpr (by omega), List.getElem?_eq_none_iff.mpr (by omega)]
    rw [hjt, het]
  | succ n ih =>
    intro i rs jt et jt2 et2 h0 hl1 hl2 hl3 hn hagree
    rw [fill_tables, fill_tables]
    cases step_size (rs 0) max_jump with
    | error e => rw [error_bind, error_bind]
    | ok s_i =>
      rw [ok_bind, ok_bind]
      cases modexp g (toUInt64 s_i) p with
      | error e => rw [error_bind, error_bind]
      | ok jv =>
        rw [ok_bind, ok_bind, store_ok jt i jv h0 (by omega), store_ok jt2 i jv h0 (by omega),
          ok_bind, ok_bind, store_ok et i s_i h0 (by omega), store_ok et2 i s_i h0 (by omega),
          ok_bind, ok_bind]
        apply ih
        · omega
        · rw [List.length_set, List.length_set]; exact hl1
        · rw [List.length_set, List.length_set]; exact hl2
        · rw [List.length_set, List.length_set]; exact hl3
        · rw [List.length_set]; omega
        · intro j hj
          rw [List.getElem?_set, List.getElem?_set, List.getElem?_set, List.getElem?_set]
          by_cases hij : i.toNat = j
          · have c1 : i.toNat < jt.length := by omega
            have c2 : i.toNat < jt2.length := by omega
            have c3 : i.toNat < et.length := by omega
            have c4 : i.toNat < et2.length := by omega
            simp only [hij, if_true]
            rw [hij] at c1 c2 c3 c4
            simp only [c1, c2, c3, c4, if_true, and_self]
          · simp only [hij, if_false]
            exact hagree j (by omega)

/-- The tables a call builds do not depend on the contents of the fresh blocks. -/
theorem built_tables_indep (env env2 : Env) (g p : Nat) (a b : Int)
    (hseed : env2.seeded = env.seeded) :
    built_tables env2 g p a b = built_tables env g p a b := by
  unfold built_tables
  rw [hseed]
  apply fill_tables_indep
  · exact le_refl 0
  · rw [alloc_length, alloc_length]
  · rw [alloc_length, alloc_length]
  · rw [alloc_length, alloc_length]
  · rw [alloc_length]; rfl
  · intro j hj
    simp at hj

/-! ## Runs of the solver -/
/-- The value returned by a run that passes the range guards is the value of the walk
on the tables the run builds, from the start values of lines 53-61. -/
theorem pollard_kangaroo_run (env : Env) (g h p : Nat) (a b : Int) (s : KState)
    (hab : ¬ a > b) (hiv : ¬ toInt64 (b - a) < 0) (T0 W0 : Nat) (jt : List Nat) (et : List Int)
    (rs : Nat → Nat) (h1 : modexp g (toUInt64 b) p = .ok T0) (h2 : umod h p = .ok W0)
    (h3 : built_tables env g p a b = .ok (jt, et, rs)) :
    returned (pollard_kangaroo env g h p a b s) =
      (walk g h p a b jt et (loop_bound_of env (toInt64 (b - a))).toNat T0 b W0 0).toOption := by
  rw [pollard_kangaroo_body env g h p a b s hab hiv, h1, ok_bind, h2, ok_bind]
  unfold built_tables at h3
  rw [h3, ok_bind]
  dsimp only
  cases walk g h p a b jt et (loop_bound_of env (toInt64 (b - a))).toNat T0 b W0 0 with
  | error e => rfl
  | ok r => rfl

/-- The variables of a run after `n` iterations, on the tables the run builds. -/
theorem kangaroos_after_run (env : Env) (g h p : Nat) (a b : Int) (n : Nat) (T0 W0 : Nat)
    (jt : List Nat) (et : List Int) (rs : Nat → Nat)
    (h1 : modexp g (toUInt64 b) p = .ok T0) (h2 : umod h p = .ok W0)
    (h3 : built_tables env g p a b = .ok (jt, et, rs)) :
    kangaroos_after env g h p a b n =
      walk_state p jt et n { T := T0, T_exp := b, W := W0, W_exp := 0 } := by
  unfold kangaroos_after
  rw [h1, ok_bind, h2, ok_bind, h3, ok_bind]

/-- With a non-zero modulus and a non-zero `(int)max_jump` the tables are built. -/
theorem built_tables_total (env : Env) (g p : Nat) (a b : Int) (hp : p ≠ 0)
    (hm : toInt32 (max_jump_of (toInt64 (b - a))) ≠ 0) :
    ∃ jt et rs, built_tables env g p a b = .ok (jt, et, rs) := by
  unfold built_tables
  obtain ⟨jt, et, h2⟩ := fill_tables_total g p _ hp hm partition_count.toNat 0 env.seeded
    (alloc partition_count env.fresh_u64) (alloc partition_count env.fresh_ll)
    (le_refl _) (by rw [alloc_length]; decide) (by rw [alloc_length, alloc_length])
  exact ⟨jt, et, _, h2⟩

/-- For a range narrower than `64 * (2 ^ 31 - 1)` every step size of the built tables
lies in `[1, max_jump]`. -/
theorem built_tables_steps (env : Env) (g p : Nat) (a b : Int) (jt : List Nat) (et : List Int)
    (rs : Nat → Nat) (h0 : 0 ≤ toInt64 (b - a)) (h1 : toInt64 (b - a) < 64 * (2 ^ 31 - 1))
    (h : built_tables env g p a b = .ok (jt, et, rs)) :
    ∀ i, i < 32 → 1 ≤ et.getD i 0 ∧ et.getD i 0 ≤ max_jump_of (toInt64 (b - a)) := by
  intro i hi
  obtain ⟨_, _, hent⟩ := built_tables_spec env g p a b jt et rs h
  obtain ⟨hs, _⟩ := hent i hi
  obtain ⟨s, hs2, hb1, hb2⟩ := step_size_bounds (env.seeded i) (toInt64 (b - a)) h0 h1
  rw [hs] at hs2
  simp only [Except.ok.injEq] at hs2
  rw [hs2]
  exact ⟨hb1, hb2⟩

/-- For a range narrower than `64 * (2 ^ 31 - 1)` the built tables satisfy the jump
relation. -/
theorem built_tables_relation (env : Env) (g p : Nat) (a b : Int) (jt : List Nat)
    (et : List Int) (rs : Nat → Nat) (hp0 : 0 < p) (hp : p < 2 ^ 64)
    (h0 : 0 ≤ toInt64 (b - a)) (h1 : toInt64 (b - a) < 64 * (2 ^ 31 - 1))
    (h : built_tables env g p a b = .ok (jt, et, rs)) :
    jump_relation g p jt et := by
  obtain ⟨l1, l2, hent⟩ := built_tables_spec env g p a b jt et rs h
  refine ⟨l1, l2, fun i hi => ?_⟩
  obtain ⟨hb1, hb2⟩ := built_tables_steps env g p a b jt et rs h0 h1 h i hi
  obtain ⟨_, hm⟩ := hent i hi
  obtain ⟨_, _, hmj⟩ := max_jump_of_small (toInt64 (b - a)) h0 h1
  have hu : toUInt64 (et.getD i 0) = (et.getD i 0).toNat :=
    toUInt64_of_nonneg _ (by omega) (by omega)
  rw [hu, modexp_value g _ p hp0 hp (by omega)] at hm
  have hne : ¬ ((et.getD i 0).toNat = 0) := by omega
  rw [if_neg hne] at hm
  simp only [Except.ok.injEq] at hm
  exact ⟨by omega, hm.symm⟩

/-! ## The later claims -/
theorem resolve_verified (g h p : Nat) (a b T_exp : Int)
    (h1 : a ≤ toInt64 (b - T_exp)) (h2 : toInt64 (b - T_exp) ≤ b)
    (hv : modexp g (toUInt64 (toInt64 (b - T_exp))) p = .ok (h % p)) :
    resolve g h p a b T_exp = .ok (toInt64 (b - T_exp)) := by
  have hp : p ≠ 0 := by
    intro h0
    simp [modexp, h0] at hv
  unfold resolve
  dsimp only
  rw [if_pos ⟨h1, h2⟩, hv, ok_bind, umod_ok h p hp, ok_bind, if_pos rfl]

theorem resolve_rejected (g h p : Nat) (a b T_exp : Int) (hp : p ≠ 0)
    (hno : ¬ (a ≤ toInt64 (b - T_exp) ∧ toInt64 (b - T_exp) ≤ b ∧
      modexp g (toUInt64 (toInt64 (b - T_exp))) p = .ok (h % p))) :
    resolve g h p a b T_exp = .ok (-1) := by
  unfold resolve
  dsimp only
  by_cases hr : toInt64 (b - T_exp) ≥ a ∧ toInt64 (b - T_exp) ≤ b
  · rw [if_pos hr]
    obtain ⟨c, hc⟩ := modexp_ok g (toUInt64 (toInt64 (b - T_exp))) p hp
    rw [hc, ok_bind, umod_ok h p hp, ok_bind]
    by_cases heq : c = h % p
    · exact absurd ⟨hr.1, hr.2, by rw [hc, heq]⟩ hno
    · rw [if_neg heq]
  · rw [if_neg hr]

/-- The result of a run is decided at the first collision: the verdict of the collision
branch there, or the sentinel when the loop bound is reached without a collision. -/
theorem run_first_collision (env : Env) (g h p : Nat) (a b : Int) (s : KState) (hp : p ≠ 0)
    (hab : a ≤ b) (hiv : 0 ≤ toInt64 (b - a))
    (hm : toInt32 (max_jump_of (toInt64 (b - a))) ≠ 0) :
    (∀ n, ∃ k, kangaroos_after env g h p a b n = .ok k) ∧
      (∀ (m : Nat) (km : Kangaroos), m < (loop_bound_of env (toInt64 (b - a))).toNat →
        kangaroos_after env g h p a b (m + 1) = .ok km → km.T = km.W →
        (∀ j kj, j < m → kangaroos_after env g h p a b (j + 1) = .ok kj → kj.T ≠ kj.W) →
        returned (pollard_kangaroo env g h p a b s) =
          (resolve g h p a b km.T_exp).toOption) ∧
      ((∀ j kj, j < (loop_bound_of env (toInt64 (b - a))).toNat →
          kangaroos_after env g h p a b (j + 1) = .ok kj → kj.T ≠ kj.W) →
        returned (pollard_kangaroo env g h p a b s) = some (-1)) := by
  obtain ⟨T0, hT0⟩ := modexp_ok g (toUInt64 b) p hp
  have hW0 := umod_ok h p hp
  obtain ⟨jt, et, rs, htab⟩ := built_tables_total env g p a b hp hm
  obtain ⟨hjt, het, _⟩ := built_tables_spec env g p a b jt et rs htab
  have hrun := pollard_kangaroo_run env g h p a b s (by omega) (by omega) T0 (h % p) jt et rs
    hT0 hW0 htab
  have hafter := fun n => kangaroos_after_run env g h p a b n T0 (h % p) jt et rs hT0 hW0 htab
  refine ⟨fun n => ?_, fun m km hlt hst hcol hfirst => ?_, fun hnone => ?_⟩
  · rw [hafter]
    exact walk_state_total p jt et hp hjt het n _
  · rw [hrun]
    rw [hafter] at hst
    have := walk_first_collision g h p a b jt et _ m
      { T := T0, T_exp := b, W := h % p, W_exp := 0 } km hlt hst hcol
      (fun j kj hj hkj => hfirst j kj hj (by rw [hafter]; exact hkj))
    dsimp only at this
    rw [this]
  · rw [hrun]
    have := walk_no_collision g h p a b jt et hp hjt het
      (loop_bound_of env (toInt64 (b - a))).toNat
      { T := T0, T_exp := b, W := h % p, W_exp := 0 }
      (fun j kj hj hkj => hnone j kj hj (by rw [hafter]; exact hkj))
    dsimp only at this
    rw [this]
    rfl

theorem kangaroos_after_cpp_view (env : Env) (g h p : Nat) (a b : Int) (n : Nat) :
    kangaroos_after (cpp_view env) g h p a b n = kangaroos_after env g h p a b n := rfl

theorem loop_bound_of_cpp_view (env : Env) (iv : Int) :
    loop_bound_of (cpp_view env) iv = loop_bound_of_cpp env iv := rfl

/-- C11 (single collision attempt). For a non-zero modulus, a range `a ≤ b` of
representable width and a non-zero `(int)max_jump`, the variables after every number
of iterations are defined, and the result of both renderings is decided at the first
iteration `m` below the loop bound after whose two updates the positions are equal:
the candidate `b - T_exp` when it lies in `[a, b]` and `modexp` verifies it against
`h mod p`, the sentinel `-1` otherwise; without such an iteration the result is `-1`. -/
theorem C11_single_collision (env : Env) (g h p : Nat) (a b : Int) (s : KState) (hp : p ≠ 0)
    (hab : a ≤ b) (hiv : 0 ≤ toInt64 (b - a))
    (hm : toInt32 (max_jump_of (toInt64 (b - a))) ≠ 0) :
    (∀ n, ∃ k, kangaroos_after env g h p a b n = .ok k) ∧
      (∀ (m : Nat) (km : Kangaroos), kangaroos_after env g h p a b (m + 1) = .ok km →
        km.T = km.W →
        (∀ j kj, j < m → kangaroos_after env g h p a b (j + 1) = .ok kj → kj.T ≠ kj.W) →
        (m < (loop_bound_of env (toInt64 (b - a))).toNat →
          (a ≤ toInt64 (b - km.T_exp) → toInt64 (b - km.T_exp) ≤ b →
            modexp g (toUInt64 (toInt64 (b - km.T_exp))) p = .ok (h % p) →
            returned (pollard_kangaroo env g h p a b s) = some (toInt64 (b - km.T_exp))) ∧
          (¬ (a ≤ toInt64 (b - km.T_exp) ∧ toInt64 (b - km.T_exp) ≤ b ∧
              modexp g (toUInt64 (toInt64 (b - km.T_exp))) p = .ok (h % p)) →
            returned (pollard_kangaroo env g h p a b s) = some (-1))) ∧
        (m < (loop_bound_of_cpp env (toInt64 (b - a))).toNat →
          (a ≤ toInt64 (b - km.T_exp) → toInt64 (b - km.T_exp) ≤ b →
            modexp g (toUInt64 (toInt64 (b - km.T_exp))) p = .ok (h % p) →
            returned (solve env g h p a b s) = some (toInt64 (b - km.T_exp))) ∧
          (¬ (a ≤ toInt64 (b - km.T_exp) ∧ toInt64 (b - km.T_exp) ≤ b ∧
              modexp g (toUInt64 (toInt64 (b - km.T_exp))) p = .ok (h % p)) →
            returned (solve env g h p a b s) = some (-1)))) ∧
      ((∀ j kj, j < (loop_bound_of env (toInt64 (b - a))).toNat →
          kangaroos_after env g h p a b (j + 1) = .ok kj → kj.T ≠ kj.W) →
        returned (pollard_kangaroo env g h p a b s) = some (-1)) ∧
      ((∀ j kj, j < (loop_bound_of_cpp env (toInt64 (b - a))).toNat →
          kangaroos_after env g h p a b (j + 1) = .ok kj → kj.T ≠ kj.W) →
        returned (solve env g h p a b s) = some (-1)) := by
  obtain ⟨htot, hfirst, hnone⟩ := run_first_collision env g h p a b s hp hab hiv hm
  obtain ⟨_, hfirst2, hnone2⟩ := run_first_collision (cpp_view env) g h p a b s hp hab hiv hm
  simp only [kangaroos_after_cpp_view, loop_bound_of_cpp_view] at hfirst2 hnone2
  rw [← (solve_matches env g h p a b s).1] at hfirst2 hnone2
  refine ⟨htot, fun m km hst hcol hprev => ⟨fun hlt => ⟨fun h1 h2 hv => ?_, fun hno => ?_⟩,
    fun hlt => ⟨fun h1 h2 hv => ?_, fun hno => ?_⟩⟩, hnone, hnone2⟩
  · rw [hfirst m km hlt hst hcol hprev, resolve_verified g h p a b km.T_exp h1 h2 hv]
    rfl
  · rw [hfirst m km hlt hst hcol hprev, resolve_rejected g h p a b km.T_exp hp hno]
    rfl
  · rw [hfirst2 m km hlt hst hcol hprev, resolve_verified g h p a b km.T_exp h1 h2 hv]
    rfl
  · rw [hfirst2 m km hlt hst hcol hprev, resolve_rejected g h p a b km.T_exp hp hno]
    rfl

theorem eq_ok_of_toOption {α : Type} (x : Except Fault α) (v : α)
    (h : x.toOption = some v) : x = .ok v := by
  cases x with
  | error e => simp [Except.toOption] at h
  | ok a =>
    simp only [Except.toOption, Option.some.injEq] at h
    rw [h]

/-- Witness of C11: with `p = 7`, `g = 2`, `h = 2` and the range `[1, 1]` the positions
are equal after the first iteration (`T = W = 4`, `T_exp = 0`), the candidate
`1 - 0 = 1` is in range and verified, and the C solver returns `1`. -/
theorem C11_single_collision_witness :
    (kangaroos_after (const_env 0) 2 2 7 1 1 1).toOption =
        some { T := 4, T_exp := 0, W := 4, W_exp := 1 } ∧
      returned (pollard_kangaroo (const_env 0) 2 2 7 1 1 init_state) = some (toInt64 (1 - 0)) :=
  ⟨by decide,
    ((((C11_single_collision (const_env 0) 2 2 7 1 1 init_state (by decide) (by decide)
      (by decide) (by decide)).2.1 0 { T := 4, T_exp := 0, W := 4, W_exp := 1 }
      (eq_ok_of_toOption _ _ (by decide)) rfl (fun j kj hj => by omega)).1 (by decide)).1
      (by decide) (by decide) (eq_ok_of_toOption _ _ (by decide)))⟩

/-- C12 (wild-kangaroo invariant). For every `g`, `h`, every modulus `1 ≤ p < 2 ^ 64`,
every pair of tables in the jump relation and every number `n` of iterations from the
wild start `W = h mod p`, `W_exp = 0` (whatever the tame start): the state after `n`
iterations is defined, the wild position is `(h * g ^ d) mod p` for the sum `d` of the
step sizes the wild kangaroo has taken, and the wild offset is `d` wrapped to
`long long`; so while `d` is below `2 ^ 63`, `W_exp = d` and
`W = (h * g ^ W_exp) mod p`. -/
theorem C12_wild_invariant (g h p : Nat) (jt : List Nat) (et : List Int) (hp1 : 1 ≤ p)
    (hp : p < 2 ^ 64) (hrel : jump_relation g p jt et) (n T0 : Nat) (T_exp0 : Int) :
    ∃ kn d, walk_state p jt et n { T := T0, T_exp := T_exp0, W := h % p, W_exp := 0 } = .ok kn ∧
      trek p jt et n (h % p) = .ok (kn.W, d) ∧ 0 ≤ d ∧
      kn.W = h * g ^ d.toNat % p ∧ kn.W_exp = toInt64 d ∧
      (d < 2 ^ 63 → kn.W_exp = d ∧ kn.W = h * g ^ kn.W_exp.toNat % p) := by
  have hpne : p ≠ 0 := by omega
  have hjt := hrel.1
  have het := hrel.2.1
  obtain ⟨kn, hkn⟩ := walk_state_total p jt et hpne hjt het n
    { T := T0, T_exp := T_exp0, W := h % p, W_exp := 0 }
  obtain ⟨dT, dW, _, hW, _, hWe⟩ := walk_state_trek p jt et hpne hjt het n _ kn hkn
  dsimp only at hW hWe
  have hWe2 : kn.W_exp = toInt64 dW := by
    have := hWe (Or.inr (by decide))
    rw [zero_add] at this
    exact this
  have hlt : h % p < 2 ^ 64 := lt_trans (Nat.mod_lt _ (by omega)) hp
  obtain ⟨hd0, hzero, hpos⟩ := trek_power g p jt et (by omega) hp hrel n (h % p) kn.W dW hlt hW
  have hpos2 : kn.W = h * g ^ dW.toNat % p := by
    by_cases hn : n = 0
    · obtain ⟨h1, h2⟩ := hzero hn
      rw [h1, h2]
      simp
    · rw [hpos (Nat.pos_of_ne_zero hn)]
      exact Nat.ModEq.mul_right _ (Nat.mod_modEq _ _)
  refine ⟨kn, dW, hkn, hW, hd0, hpos2, hWe2, fun hsmall => ?_⟩
  have heq : kn.W_exp = dW := by
    rw [hWe2]
    exact toInt64_of_range dW (by omega) hsmall
  refine ⟨heq, ?_⟩
  rw [heq]
  exact hpos2

/-- Witness of C12: `g = 2`, `h = 3`, `p = 7`, tables with every step size `1` and every
jump value `2`, two iterations. -/
theorem C12_wild_invariant_witness :
    ∃ kn d, walk_state 7 (List.replicate 32 2) (List.replicate 32 1) 2
        { T := 1, T_exp := 5, W := 3 % 7, W_exp := 0 } = .ok kn ∧
      kn.W = 3 * 2 ^ d.toNat % 7 ∧ kn.W_exp = toInt64 d :=
  let ⟨kn, d, h1, _, _, h2, h3, _⟩ :=
    C12_wild_invariant 2 3 7 (List.replicate 32 2) (List.replicate 32 1) (by decide)
      (by decide) ⟨rfl, rfl, by decide⟩ 2 1 5
  ⟨kn, d, h1, h2, h3⟩

/-- C13 (tame-kangaroo invariant). On the instance of the demo (`p = 467`, `g = 2`,
`a = 20`, `b = 100`, `h = 2 ^ 63 mod 467`) with every step size `1`, the state after one
iteration has the tame position `2 ^ 101 mod 467` and the tame offset `99`: the offset is
non-negative, and the position is not `g ^ T_exp mod p`. The same holds for every
behaviour of the library: after the first iteration of a run on this instance the tame
offset is non-negative and the tame position differs from `g ^ T_exp mod p`. -/
theorem C13_tame_offset_mismatch :
    ((kangaroos_after (const_env 0) 2 (2 ^ 63 % 467) 467 20 100 1).toOption =
        some { T := 2 ^ 101 % 467, T_exp := 99, W := 2 ^ 64 % 467, W_exp := 1 } ∧
      (0 : Int) ≤ 99 ∧ 2 ^ 101 % 467 ≠ 2 ^ (99 : Int).toNat % 467) ∧
      ∀ env : Env, ∃ km, kangaroos_after env 2 (2 ^ 63 % 467) 467 20 100 1 = .ok km ∧
        0 ≤ km.T_exp ∧ km.T ≠ 2 ^ km.T_exp.toNat % 467 := by
  refine ⟨by decide, fun env => ?_⟩
  have hp : (467 : Nat) ≠ 0 := by decide
  obtain ⟨jt, et, rs, htab⟩ := built_tables_total env 2 467 20 100 hp (by decide)
  obtain ⟨hjt, het, _⟩ := built_tables_spec env 2 467 20 100 jt et rs htab
  have hsteps := built_tables_steps env 2 467 20 100 jt et rs (by decide) (by decide) htab
    29 (by decide)
  have hmj : max_jump_of (toInt64 (100 - 20)) = 2 := by decide
  rw [hmj] at hsteps
  have hrel := (built_tables_relation env 2 467 20 100 jt et rs (by decide) (by decide)
    (by decide) (by decide) htab).2.2 29 (by decide)
  have hT0 : modexp 2 (toUInt64 100) 467 = .ok 189 := eq_ok_of_toOption _ _ (by decide)
  have hW0 : umod (2 ^ 63 % 467) 467 = .ok 418 := umod_ok _ _ hp
  rw [kangaroos_after_run env 2 (2 ^ 63 % 467) 467 20 100 1 189 418 jt et rs hT0 hW0 htab,
    walk_state_succ, walk_step_ok 467 jt et hp hjt het, ok_bind, walk_state_zero]
  refine ⟨_, rfl, ?_⟩
  dsimp only
  have h29 : 189 % 32 = 29 := by decide
  rw [h29, hrel.2]
  have hs : et.getD 29 0 = 1 ∨ et.getD 29 0 = 2 := by omega
  rcases hs with hs | hs
  · rw [hs]
    decide
  · rw [hs]
    decide

/-! ## The loop bound -/

/-- The highest set bit: `2 ^ bit_index ≤ n < 2 ^ (bit_index + 1)` for a positive `n`
that fits the fuel. -/
theorem bit_index_spec : ∀ (fuel n : Nat), 0 < n → n < 2 ^ (fuel + 1) →
    2 ^ bit_index fuel n ≤ n ∧ n < 2 ^ (bit_index fuel n + 1) := by
  intro fuel
  induction fuel with
  | zero =>
    intro n h0 h1
    simp only [bit_index]
    omega
  | succ f ih =>
    intro n h0 h1
    by_cases h2 : 2 ≤ n
    · have hrec : bit_index (f + 1) n = bit_index f (n / 2) + 1 := by
        simp only [bit_index, if_pos h2]
      have hlt : n / 2 < 2 ^ (f + 1) := by
        rw [pow_succ] at h1
        omega
      obtain ⟨i1, i2⟩ := ih (n / 2) (by omega) hlt
      rw [hrec]
      constructor
      · rw [pow_succ]
        omega
      · rw [pow_succ]
        omega
    · have hrec : bit_index (f + 1) n = 0 := by
        simp only [bit_index, if_neg h2]
      rw [hrec]
      omega

/-- The bit by bit square root keeps `r * r ≤ n < (r + 2 ^ k) * (r + 2 ^ k)`. -/
theorem root_bits_spec : ∀ (k n r : Nat), r * r ≤ n → n < (r + 2 ^ k) * (r + 2 ^ k) →
    root_bits k n r * root_bits k n r ≤ n ∧
      n < (root_bits k n r + 1) * (root_bits k n r + 1) := by
  intro k
  induction k with
  | zero =>
    intro n r h1 h2
    simpa [root_bits] using And.intro h1 h2
  | succ k ih =>
    intro n r h1 h2
    simp only [root_bits]
    by_cases hc : (r + 2 ^ k) * (r + 2 ^ k) ≤ n
    · rw [if_pos hc]
      apply ih _ _ hc
      have : r + 2 ^ k + 2 ^ k = r + 2 ^ (k + 1) := by rw [pow_succ]; ring
      rw [this]
      exact h2
    · rw [if_neg hc]
      exact ih _ _ h1 (by omega)

/-- Below `2 ^ 53` the conversion to `double` is exact. -/
theorem to_double_exact (n : Nat) (h : n < 2 ^ 53) : to_double n = n := by
  unfold to_double
  rw [if_pos h]

/-- As long as the rounded root has at least two bits more than the integer part of
`2·√m` needs, rounding never reaches the next integer: the truncated value is the
integer `q` with `q * q ≤ 4 * m < (q + 1) * (q + 1)`. -/
theorem two_sqrt_rounded_floor (prec m : Nat) (hm : m < 2 ^ 64)
    (hprec : 2 * (bit_index 64 m / 2) + 4 ≤ prec) :
    two_sqrt_rounded prec m * two_sqrt_rounded prec m ≤ 4 * m ∧
      4 * m < (two_sqrt_rounded prec m + 1) * (two_sqrt_rounded prec m + 1) := by
  by_cases h0 : m = 0
  · subst h0
    simp [two_sqrt_rounded]
  obtain ⟨hb1, hb2⟩ := bit_index_spec 64 m (by omega) (by omega)
  generalize he : bit_index 64 m / 2 = e at hprec
  have hbe : bit_index 64 m + 1 ≤ 2 * e + 2 := by omega
  have hm4 : m < 4 ^ (e + 1) := by
    have h4 : (4 : Nat) ^ (e + 1) = 2 ^ (2 * e + 2) := by
      rw [show (4 : Nat) = 2 ^ 2 by norm_num, ← pow_mul]
      congr 1
    rw [h4]
    exact lt_of_lt_of_le hb2 (Nat.pow_le_pow_right (by norm_num) hbe)
  obtain ⟨c, hc⟩ : ∃ c, prec - 2 - e = c := ⟨_, rfl⟩
  have hc1 : prec - 1 - e = c + 1 := by omega
  have hec : e + 2 ≤ c := by omega
  have hprec2 : prec = c + 1 + (e + 1) := by omega
  have hdef : two_sqrt_rounded prec m =
      (if m * 4 ^ (c + 1) ≤ root_bits prec (m * 4 ^ (c + 1)) 0 *
          root_bits prec (m * 4 ^ (c + 1)) 0 + root_bits prec (m * 4 ^ (c + 1)) 0
        then root_bits prec (m * 4 ^ (c + 1)) 0
        else root_bits prec (m * 4 ^ (c + 1)) 0 + 1) / 2 ^ c := by
    simp only [two_sqrt_rounded, if_neg h0, he, hc, hc1]
  generalize hS : m * 4 ^ (c + 1) = S at hdef
  generalize hr : root_bits prec S 0 = r at hdef
  set A := 2 ^ c with hA
  have hApos : 0 < A := by positivity
  have hSA : S = 4 * m * (A * A) := by
    have h4c : (4 : Nat) ^ c = 2 ^ c * 2 ^ c := by
      rw [← mul_pow]
      norm_num
    rw [← hS, hA, pow_succ, h4c]
    ring
  have hSlt : S < (0 + 2 ^ prec) * (0 + 2 ^ prec) := by
    rw [zero_add, ← hS, hprec2]
    have h1 : m * 4 ^ (c + 1) < 4 ^ (e + 1) * 4 ^ (c + 1) :=
      Nat.mul_lt_mul_of_pos_right hm4 (by positivity)
    have h2 : (2 : Nat) ^ (c + 1 + (e + 1)) * 2 ^ (c + 1 + (e + 1)) = 4 ^ (e + 1) * 4 ^ (c + 1) := by
      rw [show (4 : Nat) = 2 * 2 by norm_num, mul_pow, mul_pow, pow_add]
      ring
    rw [h2]
    exact h1
  obtain ⟨hr1, hr2⟩ := root_bits_spec prec S 0 (by omega) hSlt
  rw [hr] at hr1 hr2
  -- the floor of the square root of 4 m
  obtain ⟨q, hq⟩ : ∃ q, q = Nat.sqrt (4 * m) := ⟨_, rfl⟩
  have hq1 : q * q ≤ 4 * m := by rw [hq]; exact Nat.sqrt_le _
  have hq2 : 4 * m < (q + 1) * (q + 1) := by rw [hq]; exact Nat.lt_succ_sqrt _
  have hqA : q + 1 ≤ A := by
    have h1 : q * q < 2 ^ (e + 2) * 2 ^ (e + 2) := by
      have h2 : (2 : Nat) ^ (e + 2) * 2 ^ (e + 2) = 4 * 4 ^ (e + 1) := by
        rw [show (4 : Nat) = 2 * 2 by norm_num, mul_pow]
        ring
      rw [h2]
      omega
    have h3 : q < 2 ^ (e + 2) := by
      by_contra hcon
      push_neg at hcon
      have := Nat.mul_le_mul hcon hcon
      omega
    have h4 : 2 ^ (e + 2) ≤ A := Nat.pow_le_pow_right (by norm_num) hec
    omega
  have hlow : q * A ≤ r := by
    by_contra hcon
    push_neg at hcon
    have h1 : (r + 1) * (r + 1) ≤ q * A * (q * A) := Nat.mul_le_mul hcon hcon
    have h2 : q * A * (q * A) ≤ S := by
      rw [hSA]
      calc q * A * (q * A) = q * q * (A * A) := by ring
        _ ≤ 4 * m * (A * A) := Nat.mul_le_mul_right _ hq1
    omega
  have hupp : r < (q + 1) * A := by
    by_contra hcon
    push_neg at hcon
    have h1 : (q + 1) * A * ((q + 1) * A) ≤ r * r := Nat.mul_le_mul hcon hcon
    have h2 : S < (q + 1) * A * ((q + 1) * A) := by
      rw [hSA]
      calc 4 * m * (A * A) < (q + 1) * (q + 1) * (A * A) :=
            Nat.mul_lt_mul_of_pos_right hq2 (by positivity)
        _ = (q + 1) * A * ((q + 1) * A) := by ring
    omega
  have hround : ¬ S ≤ r * r + r → r + 1 < (q + 1) * A := by
    intro hgt
    by_contra hcon
    have hB : r + 1 = (q + 1) * A := by omega
    have h1 : S + A * A ≤ (q + 1) * A * ((q + 1) * A) := by
      rw [hSA]
      have h2 : 4 * m + 1 ≤ (q + 1) * (q + 1) := hq2
      calc 4 * m * (A * A) + A * A = (4 * m + 1) * (A * A) := by ring
        _ ≤ (q + 1) * (q + 1) * (A * A) := Nat.mul_le_mul_right _ h2
        _ = (q + 1) * A * ((q + 1) * A) := by ring
    rw [← hB] at h1
    have h3 : A * A ≤ r := by nlinarith
    have h4 : (q + 1) * A ≤ A * A := Nat.mul_le_mul_right _ hqA
    omega
  have hval : two_sqrt_rounded prec m = q := by
    rw [hdef]
    by_cases hle : S ≤ r * r + r
    · rw [if_pos hle]
      exact Nat.div_eq_of_lt_le hlow hupp
    · rw [if_neg hle]
      exact Nat.div_eq_of_lt_le (by omega) (hround hle)
  rw [hval]
  exact ⟨hq1, hq2⟩

/-- The highest set bit of a number below `2 ^ (k + 1)` is at most `k`. -/
theorem bit_index_le (m k : Nat) (hk : k < 64) (hm : m < 2 ^ (k + 1)) :
    bit_index 64 m ≤ k := by
  by_cases h0 : m = 0
  · subst h0
    simp [bit_index]
  · have hlt : m < 2 ^ (64 + 1) :=
      lt_of_lt_of_le hm (Nat.pow_le_pow_right (by norm_num) (by omega))
    obtain ⟨h1, _⟩ := bit_index_spec 64 m (by omega) hlt
    have h2 : 2 ^ bit_index 64 m < 2 ^ (k + 1) := lt_of_le_of_lt h1 hm
    have h3 := (Nat.pow_lt_pow_iff_right (by norm_num : 1 < 2)).mp h2
    omega

/-- The loop bound of a range narrower than `2 ^ 50` on an IEEE 754 platform, in both
renderings: `q + 1000` for the integer `q` with `q * q ≤ 4 * (b - a) < (q + 1) * (q + 1)`. -/
theorem loop_bound_narrow (sd : Nat → Nat) (f1 : Nat → Nat) (f2 : Nat → Int) (w : Int)
    (h0 : 0 ≤ w) (hw : w < 2 ^ 50) :
    ∃ q : Int, 0 ≤ q ∧ q * q ≤ 4 * w ∧ 4 * w < (q + 1) * (q + 1) ∧
      loop_bound_of (ieee_env sd f1 f2) (toInt64 w) = q + 1000 ∧
      loop_bound_of_cpp (ieee_env sd f1 f2) (toInt64 w) = q + 1000 := by
  have hiv : toInt64 w = w := toInt64_of_range _ (by omega) (by omega)
  obtain ⟨m, hm⟩ : ∃ m : Nat, w = (m : Int) := ⟨w.toNat, by omega⟩
  have hm50 : m < 2 ^ 50 := by omega
  have hbi : bit_index 64 m ≤ 49 := bit_index_le m 49 (by norm_num) hm50
  have hd : to_double m = m := to_double_exact m (by omega)
  obtain ⟨c1, c2⟩ := two_sqrt_rounded_floor 53 m (by omega) (by omega)
  obtain ⟨e1, e2⟩ := two_sqrt_rounded_floor 64 m (by omega) (by omega)
  have hsame : two_sqrt_rounded 64 m = two_sqrt_rounded 53 m := by
    rw [Nat.eq_sqrt.mpr ⟨c1, c2⟩, Nat.eq_sqrt.mpr ⟨e1, e2⟩]
  have hq : two_sqrt_rounded 53 m < 2 ^ 26 := by
    by_contra hcon
    push_neg at hcon
    have := Nat.mul_le_mul hcon hcon
    omega
  have htn : w.toNat = m := by omega
  have hL1 : loop_bound_of (ieee_env sd f1 f2) (toInt64 w) =
      (let lb := toInt64 (((two_sqrt_rounded 53 m : Nat) : Int) + 1000)
       if lb < 0 then 1000 else lb) := by
    unfold loop_bound_of ieee_env
    simp only [hiv, htn, hd, Int.ofNat_eq_coe]
  have hL2 : loop_bound_of_cpp (ieee_env sd f1 f2) (toInt64 w) =
      (let lb := toInt64 (((two_sqrt_rounded 53 m : Nat) : Int) + 1000)
       if lb < 0 then 1000 else lb) := by
    unfold loop_bound_of_cpp ieee_env
    simp only [hiv, htn, hsame, Int.ofNat_eq_coe]
  rw [hL1, hL2]
  clear hL1 hL2 hsame e1 e2 hd
  generalize two_sqrt_rounded 53 m = q at *
  have hwrap : toInt64 ((q : Int) + 1000) = (q : Int) + 1000 :=
    toInt64_of_range _ (by omega) (by omega)
  have hnn : ¬ (((q : Int) + 1000) < 0) := by omega
  refine ⟨(q : Int), by omega, ?_, ?_, ?_, ?_⟩
  · rw [hm]
    exact_mod_cast c1
  · rw [hm]
    exact_mod_cast c2
  · dsimp only
    rw [hwrap, if_neg hnn]
  · dsimp only
    rw [hwrap, if_neg hnn]

/-- Counterexample of C14: for the width `2` the truncated value of `2·√2 = 2.83…` is
`2`, so the loop bound is `1002` in both renderings, while `⌈2·√2⌉ + 1000 = 1003`
(`3` is the least integer whose square reaches `4 · 2`). -/
theorem C14_loop_bound_counterexample :
    loop_bound_of (const_env 0) (toInt64 (2 - 0)) = 1002 ∧
      loop_bound_of_cpp (const_env 0) (toInt64 (2 - 0)) = 1002 ∧
      (2 : Int) * 2 < 4 * (2 - 0) ∧ 4 * (2 - 0) ≤ (3 : Int) * 3 ∧ (1002 : Int) ≠ 3 + 1000 := by
  decide!

/-- C14 (loop limit, amended). On a platform with IEEE 754 arithmetic, for every
generator and every range `a ≤ b` narrower than `2 ^ 50`, the loop bound of both
renderings is `q + 1000` for the integer `q = ⌊2·√(b − a)⌋`, that is `q ≥ 0` and
`q² ≤ 4·(b − a) < (q + 1)²`: the cast to `long long` truncates, and below `2 ^ 50` the
rounding of the square root never reaches the next integer. -/
theorem C14_loop_bound_truncated (seeded : Nat → Nat) (fresh_u64 : Nat → Nat)
    (fresh_ll : Nat → Int) (a b : Int) (hab : a ≤ b) (hw : b - a < 2 ^ 50) :
    ∃ q : Int, 0 ≤ q ∧ q * q ≤ 4 * (b - a) ∧ 4 * (b - a) < (q + 1) * (q + 1) ∧
      loop_bound_of (ieee_env seeded fresh_u64 fresh_ll) (toInt64 (b - a)) = q + 1000 ∧
      loop_bound_of_cpp (ieee_env seeded fresh_u64 fresh_ll) (toInt64 (b - a)) = q + 1000 :=
  loop_bound_narrow seeded fresh_u64 fresh_ll (b - a) (by omega) hw

/-- Witness of C14: the range `[0, 2]`. -/
theorem C14_loop_bound_truncated_witness :
    ∃ q : Int, 0 ≤ q ∧ q * q ≤ 4 * (2 - 0) ∧ 4 * (2 - 0) < (q + 1) * (q + 1) ∧
      loop_bound_of (const_env 0) (toInt64 (2 - 0)) = q + 1000 ∧
      loop_bound_of_cpp (const_env 0) (toInt64 (2 - 0)) = q + 1000 :=
  C14_loop_bound_truncated (fun _ => 0) (fun _ => 0) (fun _ => 0) 0 2 (by decide) (by decide)

/-- At the width `2 ^ 50 + 2 ^ 25` the `double` square root of the C rendering rounds up
to `2 ^ 25 + 1 / 2`: the C loop bound is `⌊2·√n⌋ + 1001`, one iteration more than the
C++ loop bound `⌊2·√n⌋ + 1000` (`⌊2·√n⌋ = 2 ^ 26`). -/
theorem loop_bounds_differ :
    loop_bound_of (const_env 0) (toInt64 (2 ^ 50 + 2 ^ 25 - 0)) = 2 ^ 26 + 1001 ∧
      loop_bound_of_cpp (const_env 0) (toInt64 (2 ^ 50 + 2 ^ 25 - 0)) = 2 ^ 26 + 1000 ∧
      (2 ^ 26 : Int) * 2 ^ 26 ≤ 4 * (2 ^ 50 + 2 ^ 25 - 0) ∧
      (4 : Int) * (2 ^ 50 + 2 ^ 25 - 0) < (2 ^ 26 + 1) * (2 ^ 26 + 1) := by
  decide!

/-- The rounding model reproduces the values of the expression on x86-64 at two more
widths: `2 ^ 52 + 2 ^ 26` (C: `2 ^ 27 + 1`, C++: `2 ^ 27`) and `2 ^ 62 + 2 ^ 31` (both
`2 ^ 32 + 1`, one above `⌊2·√n⌋`). -/
theorem two_sqrt_rounded_values :
    two_sqrt_rounded 53 (to_double (2 ^ 52 + 2 ^ 26)) = 2 ^ 27 + 1 ∧
      two_sqrt_rounded 64 (2 ^ 52 + 2 ^ 26) = 2 ^ 27 ∧
      two_sqrt_rounded 53 (to_double (2 ^ 62 + 2 ^ 31)) = 2 ^ 32 + 1 ∧
      two_sqrt_rounded 64 (2 ^ 62 + 2 ^ 31) = 2 ^ 32 + 1 := by
  decide!

/-- The value `pollard_kangaroo` returns depends on the library only through the
generator stream and the loop bound: not on the stored state, and not on the contents
of the fresh blocks. -/
theorem pollard_kangaroo_congr (env env2 : Env) (g h p : Nat) (a b : Int) (s s2 : KState)
    (hseed : env2.seeded = env.seeded)
    (hL : loop_bound_of env2 (toInt64 (b - a)) = loop_bound_of env (toInt64 (b - a))) :
    returned (pollard_kangaroo env2 g h p a b s2) = returned (pollard_kangaroo env g h p a b s) := by
  by_cases hab : a > b
  · simp [pollard_kangaroo, hab, returned]
  · by_cases hiv : toInt64 (b - a) < 0
    · simp [pollard_kangaroo, hab, hiv, returned]
    · rw [pollard_kangaroo_body env g h p a b s hab hiv,
        pollard_kangaroo_body env2 g h p a b s2 hab hiv]
      have hb := built_tables_indep env env2 g p a b hseed
      unfold built_tables at hb
      rw [hb, hL]

/-- Where the floating point expression for the loop bound has the same value in both
renderings, the C++ method returns the value the C function returns (or both have no
defined result), for every behaviour of the random source and every pair of stored
states. -/
theorem solve_eq_of_two_sqrt (env : Env) (g h p : Nat) (a b : Int) (s s2 : KState)
    (hfp : env.two_sqrt_cpp (toInt64 (b - a)) = env.two_sqrt (toInt64 (b - a))) :
    returned (solve env g h p a b s2) = returned (pollard_kangaroo env g h p a b s) := by
  rw [(solve_matches env g h p a b s2).1]
  apply pollard_kangaroo_congr
  · rfl
  · rw [loop_bound_of_cpp_view]
    unfold loop_bound_of_cpp loop_bound_of
    rw [hfp]

/-- On a platform with IEEE 754 arithmetic the two renderings return the same value
(or both have no defined result) for every range narrower than `2 ^ 50`, where their
loop bounds agree; `loop_bounds_differ` shows a width at which the C loop runs one
iteration longer. -/
theorem renderings_agree_narrow (seeded : Nat → Nat) (fresh_u64 : Nat → Nat)
    (fresh_ll : Nat → Int) (g h p : Nat) (a b : Int) (s s2 : KState) (hw : b - a < 2 ^ 50) :
    returned (solve (ieee_env seeded fresh_u64 fresh_ll) g h p a b s2) =
      returned (pollard_kangaroo (ieee_env seeded fresh_u64 fresh_ll) g h p a b s) := by
  by_cases hab : a > b
  · simp [pollard_kangaroo, solve, hab, returned]
  · rw [(solve_matches _ g h p a b s2).1]
    apply pollard_kangaroo_congr
    · rfl
    · obtain ⟨q, _, _, _, h1, h2⟩ :=
        loop_bound_narrow seeded fresh_u64 fresh_ll (b - a) (by omega) hw
      rw [loop_bound_of_cpp_view, h1, h2]

/-- C16 (no stale-table leakage). For every input and every behaviour of the random
source, the value either rendering returns is the same for every stored state before
the call and for every contents of the blocks the call allocates (which may be the
memory of earlier tables): every table cell the walk reads was written by the call. -/
theorem C16_no_stale_tables (env : Env) (g h p : Nat) (a b : Int) (s s2 : KState)
    (f1 : Nat → Nat) (f2 : Nat → Int) :
    returned (pollard_kangaroo { env with fresh_u64 := f1, fresh_ll := f2 } g h p a b s2) =
        returned (pollard_kangaroo env g h p a b s) ∧
      returned (solve { env with fresh_u64 := f1, fresh_ll := f2 } g h p a b s2) =
        returned (solve env g h p a b s) := by
  constructor
  · exact pollard_kangaroo_congr env _ g h p a b s s2 rfl rfl
  · rw [(solve_matches _ g h p a b s2).1, (solve_matches env g h p a b s).1]
    exact pollard_kangaroo_congr (cpp_view env) _ g h p a b s s2 rfl rfl

theorem built_tables_cpp_view (env : Env) (g p : Nat) (a b : Int) :
    built_tables (cpp_view env) g p a b = built_tables env g p a b := rfl

/-- A value other than the sentinel returned by `pollard_kangaroo` on a narrow range is
the distance the tame kangaroo has travelled when the positions first coincide. -/
theorem run_candidate_distance (env : Env) (g h p : Nat) (a b : Int) (s : KState) (r : Int)
    (hab : a ≤ b) (hnarrow : b - a < 64 * (2 ^ 31 - 1))
    (hL : loop_bound_of env (toInt64 (b - a)) ≤ 2 ^ 32)
    (hr : returned (pollard_kangaroo env g h p a b s) = some r) (hne : r ≠ -1) :
    ∃ (k : Nat) (km : Kangaroos) (jt : List Nat) (et : List Int) (rs : Nat → Nat) (T0 : Nat),
      1 ≤ k ∧ built_tables env g p a b = .ok (jt, et, rs) ∧
      modexp g (toUInt64 b) p = .ok T0 ∧
      kangaroos_after env g h p a b k = .ok km ∧ km.T = km.W ∧
      r = toInt64 (b - km.T_exp) ∧ trek p jt et k T0 = .ok (km.T, r) ∧
      (k : Int) ≤ r ∧ r ≤ k * max_jump_of (toInt64 (b - a)) ∧ r ≠ 0 := by
  have hiv : toInt64 (b - a) = b - a := toInt64_of_range _ (by omega) (by omega)
  have hiv0 : 0 ≤ toInt64 (b - a) := by rw [hiv]; omega
  have hiv1 : toInt64 (b - a) < 64 * (2 ^ 31 - 1) := by rw [hiv]; exact hnarrow
  obtain ⟨_, hmj1, hmj2⟩ := max_jump_of_small (toInt64 (b - a)) hiv0 hiv1
  have hm : toInt32 (max_jump_of (toInt64 (b - a))) ≠ 0 := by
    rw [toInt32_of_range _ (by omega) hmj2]
    omega
  have hp : p ≠ 0 := by
    intro h0
    rw [pollard_kangaroo_body env g h p a b s (by omega) (by omega)] at hr
    have : modexp g (toUInt64 b) p = .error .div_by_zero := by simp [modexp, h0]
    rw [this, error_bind] at hr
    simp [returned] at hr
  obtain ⟨T0, hT0⟩ := modexp_ok g (toUInt64 b) p hp
  have hW0 := umod_ok h p hp
  obtain ⟨jt, et, rs, htab⟩ := built_tables_total env g p a b hp hm
  obtain ⟨hjt, het, _⟩ := built_tables_spec env g p a b jt et rs htab
  have hsteps := built_tables_steps env g p a b jt et rs hiv0 hiv1 htab
  rw [pollard_kangaroo_run env g h p a b s (by omega) (by omega) T0 (h % p) jt et rs
    hT0 hW0 htab] at hr
  have hwalk := eq_ok_of_toOption _ _ hr
  obtain ⟨m, km, hmL, hst, hcol, hcand⟩ := walk_returns_candidate g h p a b jt et _
    { T := T0, T_exp := b, W := h % p, W_exp := 0 } r hwalk hne
  obtain ⟨dT, dW, htrek, _, hTe, _⟩ := walk_state_trek p jt et hp hjt het (m + 1) _ km hst
  dsimp only at htrek hTe
  have hTe2 := hTe (Or.inl (by omega))
  obtain ⟨hd1, hd2⟩ := trek_distance p jt et _ hp hjt het hsteps (m + 1) T0 km.T dT htrek
  have hmL2 : ((m + 1 : Nat) : Int) ≤ 2 ^ 32 := by omega
  have hdlt : dT < 2 ^ 63 := by
    have : dT ≤ 2 ^ 32 * (2 ^ 31 - 1) := by
      calc dT ≤ ((m + 1 : Nat) : Int) * max_jump_of (toInt64 (b - a)) := hd2
        _ ≤ 2 ^ 32 * (2 ^ 31 - 1) := by
          apply mul_le_mul hmL2 (by omega) (by omega) (by norm_num)
    omega
  have hrd : r = dT := by
    rw [hcand, hTe2, toInt64_candidate]
    exact toInt64_of_range dT (by omega) hdlt
  refine ⟨m + 1, km, jt, et, rs, T0, by omega, htab, hT0, ?_, hcol, hcand, ?_, ?_, ?_, ?_⟩
  · rw [kangaroos_after_run env g h p a b (m + 1) T0 (h % p) jt et rs hT0 hW0 htab]
    exact hst
  · rw [hrd]
    exact htrek
  · rw [hrd]
    exact hd1
  · rw [hrd]
    exact hd2
  · rw [hrd]
    have : (0 : Int) < ((m + 1 : Nat) : Int) := by omega
    omega

/-- C17 (the candidate is the tame distance). For a range `a ≤ b` narrower than
`64 * (2 ^ 31 - 1)` and loop bounds of at most `2 ^ 32` (so that no signed value
overflows), every value `r` other than the sentinel that either rendering returns
comes from a collision after some `k ≥ 1` iterations, equals the candidate
`b - T_exp` there, is the sum of the `k` step sizes the tame kangaroo has taken from
`g ^ b`, and satisfies `k ≤ r ≤ k * max_jump`; in particular `r` is never `0`. -/
theorem C17_candidate_is_tame_distance (env : Env) (g h p : Nat) (a b : Int) (s : KState)
    (r : Int) (hab : a ≤ b) (hnarrow : b - a < 64 * (2 ^ 31 - 1))
    (hL : loop_bound_of env (toInt64 (b - a)) ≤ 2 ^ 32)
    (hLcpp : loop_bound_of_cpp env (toInt64 (b - a)) ≤ 2 ^ 32)
    (hr : returned (pollard_kangaroo env g h p a b s) = some r ∨
      returned (solve env g h p a b s) = some r)
    (hne : r ≠ -1) :
    ∃ (k : Nat) (km : Kangaroos) (jt : List Nat) (et : List Int) (rs : Nat → Nat) (T0 : Nat),
      1 ≤ k ∧ built_tables env g p a b = .ok (jt, et, rs) ∧
      modexp g (toUInt64 b) p = .ok T0 ∧
      kangaroos_after env g h p a b k = .ok km ∧ km.T = km.W ∧
      r = toInt64 (b - km.T_exp) ∧ trek p jt et k T0 = .ok (km.T, r) ∧
      (k : Int) ≤ r ∧ r ≤ k * max_jump_of (toInt64 (b - a)) ∧ r ≠ 0 := by
  rcases hr with hr | hr
  · exact run_candidate_distance env g h p a b s r hab hnarrow hL hr hne
  · rw [(solve_matches env g h p a b s).1] at hr
    have := run_candidate_distance (cpp_view env) g h p a b s r hab hnarrow
      (by rw [loop_bound_of_cpp_view]; exact hLcpp) hr hne
    rw [built_tables_cpp_view] at this
    simp only [kangaroos_after_cpp_view] at this
    exact this

/-- Witness of C17: with `p = 7`, `g = 2`, `h = 2` and the range `[1, 1]` the C solver
returns `1`, the single step the tame kangaroo has taken. -/
theorem C17_candidate_is_tame_distance_witness :
    ∃ (k : Nat) (km : Kangaroos) (jt : List Nat) (et : List Int) (rs : Nat → Nat) (T0 : Nat),
      1 ≤ k ∧ built_tables (const_env 0) 2 7 1 1 = .ok (jt, et, rs) ∧
      modexp 2 (toUInt64 1) 7 = .ok T0 ∧
      kangaroos_after (const_env 0) 2 2 7 1 1 k = .ok km ∧ km.T = km.W ∧
      (1 : Int) = toInt64 (1 - km.T_exp) ∧ trek 7 jt et k T0 = .ok (km.T, 1) ∧
      (k : Int) ≤ 1 ∧ (1 : Int) ≤ k * max_jump_of (toInt64 (1 - 1)) ∧ (1 : Int) ≠ 0 :=
  C17_candidate_is_tame_distance (const_env 0) 2 2 7 1 1 init_state 1 (by decide) (by decide)
    (by decide) (by decide) (Or.inl (by decide)) (by decide)

theorem step_size_range (r : Nat) (m s : Int) (h : step_size r m = .ok s) :
    -(2 ^ 31) ≤ s ∧ s < 2 ^ 31 := by
  unfold step_size at h
  split at h
  · simp at h
  · simp only [Except.ok.injEq] at h
    rw [← h]
    unfold toInt32
    omega

/-- When the wild kangaroo starts where the tame one starts, the positions coincide
after the first iteration and the candidate is the first step size. -/
theorem run_equal_start (env : Env) (g h p : Nat) (a b : Int) (s : KState) (hp : p ≠ 0)
    (hab : a ≤ b) (hiv : 0 ≤ toInt64 (b - a))
    (hm : toInt32 (max_jump_of (toInt64 (b - a))) ≠ 0)
    (hstart : modexp g (toUInt64 b) p = .ok (h % p))
    (hL : 0 < loop_bound_of env (toInt64 (b - a))) :
    ∃ (jt : List Nat) (et : List Int) (rs : Nat → Nat),
      built_tables env g p a b = .ok (jt, et, rs) ∧
      (a ≤ et.getD (h % p % 32) 0 → et.getD (h % p % 32) 0 ≤ b →
        modexp g (toUInt64 (et.getD (h % p % 32) 0)) p = .ok (h % p) →
        returned (pollard_kangaroo env g h p a b s) = some (et.getD (h % p % 32) 0)) ∧
      (¬ (a ≤ et.getD (h % p % 32) 0 ∧ et.getD (h % p % 32) 0 ≤ b ∧
          modexp g (toUInt64 (et.getD (h % p % 32) 0)) p = .ok (h % p)) →
        returned (pollard_kangaroo env g h p a b s) = some (-1)) := by
  have hW0 := umod_ok h p hp
  obtain ⟨jt, et, rs, htab⟩ := built_tables_total env g p a b hp hm
  obtain ⟨hjt, het, hent⟩ := built_tables_spec env g p a b jt et rs htab
  have hrun := pollard_kangaroo_run env g h p a b s (by omega) (by omega) (h % p) (h % p)
    jt et rs hstart hW0 htab
  obtain ⟨hs1, hs2⟩ := step_size_range _ _ _ (hent (h % p % 32) (Nat.mod_lt _ (by norm_num))).1
  have hcand : toInt64 (b - toInt64 (b - et.getD (h % p % 32) 0)) = et.getD (h % p % 32) 0 := by
    rw [toInt64_candidate]
    exact toInt64_of_range _ (by omega) (by omega)
  have hstep := walk_step_ok p jt et hp hjt het { T := h % p, T_exp := b, W := h % p, W_exp := 0 }
  dsimp only at hstep
  have hwalk := walk_first_collision g h p a b jt et (loop_bound_of env (toInt64 (b - a))).toNat 0
    { T := h % p, T_exp := b, W := h % p, W_exp := 0 } _ (by omega)
    (by rw [walk_state_succ, hstep, ok_bind, walk_state_zero]) rfl (fun j kj hj => by omega)
  dsimp only at hwalk
  rw [hwalk] at hrun
  refine ⟨jt, et, rs, htab, fun h1 h2 hv => ?_, fun hno => ?_⟩
  · rw [hrun, resolve_verified g h p a b _ (by rw [hcand]; exact h1) (by rw [hcand]; exact h2)
      (by rw [hcand]; exact hv), hcand]
    rfl
  · rw [hrun, resolve_rejected g h p a b _ hp (by rw [hcand]; exact hno)]
    rfl

theorem run_zero_bound (env : Env) (g h p : Nat) (a b : Int) (s : KState) (hp : p ≠ 0)
    (hab : a ≤ b) (hiv : 0 ≤ toInt64 (b - a))
    (hm : toInt32 (max_jump_of (toInt64 (b - a))) ≠ 0)
    (hL : ¬ 0 < loop_bound_of env (toInt64 (b - a))) :
    returned (pollard_kangaroo env g h p a b s) = some (-1) := by
  obtain ⟨T0, hT0⟩ := modexp_ok g (toUInt64 b) p hp
  obtain ⟨jt, et, rs, htab⟩ := built_tables_total env g p a b hp hm
  rw [pollard_kangaroo_run env g h p a b s (by omega) (by omega) T0 (h % p) jt et rs hT0
    (umod_ok h p hp) htab]
  have h0 : (loop_bound_of env (toInt64 (b - a))).toNat = 0 := by omega
  rw [h0, walk]
  rfl

/-- On the instance `p = 467`, `g = 2`, `[20, 100]` with the target `2 ^ 100 mod 467`
the C function returns the sentinel, whatever the library does. -/
theorem run_target_at_b (env : Env) (s : KState) :
    returned (pollard_kangaroo env 2 (2 ^ 100 % 467) 467 20 100 s) = some (-1) := by
  by_cases hL : 0 < loop_bound_of env (toInt64 (100 - 20))
  · obtain ⟨jt, et, rs, htab, _, hrej⟩ := run_equal_start env 2 (2 ^ 100 % 467) 467 20 100 s
      (by decide) (by decide) (by decide) (by decide) (eq_ok_of_toOption _ _ (by decide)) hL
    apply hrej
    intro hc
    have hsteps := built_tables_steps env 2 467 20 100 jt et rs (by decide) (by decide) htab
      (2 ^ 100 % 467 % 467 % 32) (by decide)
    have hmj : max_jump_of (toInt64 (100 - 20)) = 2 := by decide
    rw [hmj] at hsteps
    omega
  · exact run_zero_bound env 2 (2 ^ 100 % 467) 467 20 100 s (by decide) (by decide)
      (by decide) (by decide) hL

/-- C18 (target at the tame start). For a non-zero modulus, a range `a ≤ b` of
representable width, a non-zero `(int)max_jump` and loop bounds of at least one
iteration: when the tame start `modexp(g, b, p)` equals `h mod p`, both kangaroos take
the same first step and each rendering returns the first step size
`s = step[partition(h mod p)]` if `a ≤ s ≤ b` and `modexp` verifies `s` against
`h mod p`, and `-1` otherwise. On `p = 467`, `g = 2`, `[20, 100]`,
`h = 2 ^ 100 mod 467` both renderings return `-1` for every behaviour of the library.
For a modulus `1 < p < 2 ^ 64` and `0 ≤ b < 2 ^ 63` the condition on the tame start
is `g ^ b mod p = h mod p`. -/
theorem C18_target_at_tame_start :
    (∀ (env : Env) (g h p : Nat) (a b : Int) (s : KState), p ≠ 0 → a ≤ b →
      0 ≤ toInt64 (b - a) → toInt32 (max_jump_of (toInt64 (b - a))) ≠ 0 →
      modexp g (toUInt64 b) p = .ok (h % p) →
      0 < loop_bound_of env (toInt64 (b - a)) → 0 < loop_bound_of_cpp env (toInt64 (b - a)) →
      ∃ (jt : List Nat) (et : List Int) (rs : Nat → Nat),
        built_tables env g p a b = .ok (jt, et, rs) ∧
        (a ≤ et.getD (h % p % 32) 0 → et.getD (h % p % 32) 0 ≤ b →
          modexp g (toUInt64 (et.getD (h % p % 32) 0)) p = .ok (h % p) →
          returned (pollard_kangaroo env g h p a b s) = some (et.getD (h % p % 32) 0) ∧
            returned (solve env g h p a b s) = some (et.getD (h % p % 32) 0)) ∧
        (¬ (a ≤ et.getD (h % p % 32) 0 ∧ et.getD (h % p % 32) 0 ≤ b ∧
            modexp g (toUInt64 (et.getD (h % p % 32) 0)) p = .ok (h % p)) →
          returned (pollard_kangaroo env g h p a b s) = some (-1) ∧
            returned (solve env g h p a b s) = some (-1))) ∧
      (∀ (env : Env) (s : KState),
        returned (pollard_kangaroo env 2 (2 ^ 100 % 467) 467 20 100 s) = some (-1) ∧
          returned (solve env 2 (2 ^ 100 % 467) 467 20 100 s) = some (-1)) ∧
      (∀ (g h p : Nat) (b : Int), 1 < p → p < 2 ^ 64 → 0 ≤ b → b < 2 ^ 63 →
        (modexp g (toUInt64 b) p = .ok (h % p) ↔ g ^ b.toNat % p = h % p)) := by
  refine ⟨?_, ?_, ?_⟩
  · intro env g h p a b s hp hab hiv hm hstart hL hLcpp
    obtain ⟨jt, et, rs, htab, hv1, hr1⟩ := run_equal_start env g h p a b s hp hab hiv hm hstart hL
    obtain ⟨jt2, et2, rs2, htab2, hv2, hr2⟩ := run_equal_start (cpp_view env) g h p a b s hp hab
      hiv hm hstart (by rw [loop_bound_of_cpp_view]; exact hLcpp)
    rw [built_tables_cpp_view, htab] at htab2
    simp only [Except.ok.injEq, Prod.mk.injEq] at htab2
    obtain ⟨e1, e2, _⟩ := htab2
    subst e1 e2
    rw [← (solve_matches env g h p a b s).1] at hv2 hr2
    exact ⟨jt, et, rs, htab, fun h1 h2 hv => ⟨hv1 h1 h2 hv, hv2 h1 h2 hv⟩,
      fun hno => ⟨hr1 hno, hr2 hno⟩⟩
  · intro env s
    refine ⟨run_target_at_b env s, ?_⟩
    rw [(solve_matches env 2 (2 ^ 100 % 467) 467 20 100 s).1]
    exact run_target_at_b (cpp_view env) s
  · intro g h p b hp1 hp hb0 hb1
    rw [toUInt64_of_nonneg b hb0 (by omega), modexp_value g _ p (by omega) hp (by omega)]
    simp only [Except.ok.injEq]
    by_cases hbz : b.toNat = 0
    · rw [if_pos hbz, hbz, pow_zero, Nat.mod_eq_of_lt hp1]
    · rw [if_neg hbz]

/-- Witness of C18: with `p = 7`, `g = 2`, `b = 1` and `h = 2 = 2 ^ 1 mod 7` the first
step size `1` lies in `[1, 1]` and is verified, and both renderings return it. -/
theorem C18_target_at_tame_start_witness :
    returned (pollard_kangaroo (const_env 0) 2 2 7 1 1 init_state) = some 1 ∧
      returned (solve (const_env 0) 2 2 7 1 1 init_state) = some 1 := by
  obtain ⟨jt, et, rs, htab, hv, _⟩ := C18_target_at_tame_start.1 (const_env 0) 2 2 7 1 1
    init_state (by decide) (by decide) (by decide) (by decide)
    (eq_ok_of_toOption _ _ (by decide)) (by decide) (by decide)
  have hsteps := built_tables_steps (const_env 0) 2 7 1 1 jt et rs (by decide) (by decide) htab
    (2 % 7 % 32) (by decide)
  have hmj : max_jump_of (toInt64 (1 - 1)) = 1 := by decide
  rw [hmj] at hsteps
  have hs : et.getD (2 % 7 % 32) 0 = 1 := by omega
  rw [hs] at hv
  exact hv (by decide) (by decide) (eq_ok_of_toOption _ _ (by decide))

/-- The invariant the tame walk maintains away from the modulus `1`. For every `g`,
`h`, every modulus `1 ≤ p < 2 ^ 64`, every `0 ≤ b < 2 ^ 63`, every pair of tables in the
jump relation and every number `n` of iterations from the start of a run, where `p > 1`
or `b > 0` or `n > 0`: with `dT` and `dW` the sums of the step sizes the tame and the
wild kangaroo have taken, `T = g ^ (b + dT) mod p` and `T_exp` is `b - dT` wrapped to
`long long`; so while `b - dT` has not wrapped, `b - T_exp = dT` and
`T = g ^ (b + (b - T_exp)) mod p`, position and offset moving in opposite directions;
and whenever the positions are equal, `g ^ (b + dT) mod p = (h * g ^ dW) mod p`, that
is `g ^ (b + (b - T_exp)) mod p = (h * g ^ W_exp) mod p` when nothing has wrapped. -/
theorem tame_walk_invariant (g h p : Nat) (jt : List Nat) (et : List Int) (hp1 : 1 ≤ p)
    (hp : p < 2 ^ 64) (hrel : jump_relation g p jt et) (b : Int) (hb0 : 0 ≤ b)
    (hb1 : b < 2 ^ 63) (T0 : Nat) (hT0 : modexp g (toUInt64 b) p = .ok T0) (n : Nat)
    (hdom : 1 < p ∨ 0 < b ∨ 0 < n) :
    ∃ kn dT dW, walk_state p jt et n { T := T0, T_exp := b, W := h % p, W_exp := 0 } = .ok kn ∧
      trek p jt et n T0 = .ok (kn.T, dT) ∧ trek p jt et n (h % p) = .ok (kn.W, dW) ∧
      0 ≤ dT ∧ 0 ≤ dW ∧
      kn.T = g ^ (b + dT).toNat % p ∧ kn.T_exp = toInt64 (b - dT) ∧
      (dT ≤ b + 2 ^ 63 → b - kn.T_exp = dT ∧ kn.T = g ^ (b + (b - kn.T_exp)).toNat % p) ∧
      (kn.T = kn.W → g ^ (b + dT).toNat % p = h * g ^ dW.toNat % p) ∧
      (dT ≤ b + 2 ^ 63 → dW < 2 ^ 63 → kn.T = kn.W →
        g ^ (b + (b - kn.T_exp)).toNat % p = h * g ^ kn.W_exp.toNat % p) := by
  have hpne : p ≠ 0 := by omega
  have hp0 : 0 < p := by omega
  have hjt := hrel.1
  have het := hrel.2.1
  obtain ⟨kn, hkn⟩ := walk_state_total p jt et hpne hjt het n
    { T := T0, T_exp := b, W := h % p, W_exp := 0 }
  obtain ⟨dT, dW, hT, hW, hTe, hWe⟩ := walk_state_trek p jt et hpne hjt het n _ kn hkn
  dsimp only at hT hW hTe hWe
  have hTe2 : kn.T_exp = toInt64 (b - dT) :=
    hTe (Or.inr (toInt64_of_range b (by omega) hb1))
  have hWe2 : kn.W_exp = toInt64 dW := by
    have := hWe (Or.inr (by decide))
    rw [zero_add] at this
    exact this
  -- the tame start
  have hu : toUInt64 b = b.toNat := toUInt64_of_nonneg b hb0 (by omega)
  rw [hu, modexp_value g _ p hp0 hp (by omega)] at hT0
  simp only [Except.ok.injEq] at hT0
  have hT0lt : T0 < 2 ^ 64 := by
    rw [← hT0]
    split
    · norm_num
    · exact lt_trans (Nat.mod_lt _ hp0) hp
  obtain ⟨hdT0, hTzero, hTpos⟩ := trek_power g p jt et hp0 hp hrel n T0 kn.T dT hT0lt hT
  have hlt : h % p < 2 ^ 64 := lt_trans (Nat.mod_lt _ hp0) hp
  obtain ⟨hdW0, hWzero, hWpos⟩ := trek_power g p jt et hp0 hp hrel n (h % p) kn.W dW hlt hW
  have hWval : kn.W = h * g ^ dW.toNat % p := by
    by_cases hn : n = 0
    · obtain ⟨h1, h2⟩ := hWzero hn
      rw [h1, h2]
      simp
    · rw [hWpos (Nat.pos_of_ne_zero hn)]
      exact Nat.ModEq.mul_right _ (Nat.mod_modEq _ _)
  have hsum : (b + dT).toNat = b.toNat + dT.toNat := by omega
  have hTval : kn.T = g ^ (b + dT).toNat % p := by
    rw [hsum, pow_add]
    by_cases hn : n = 0
    · obtain ⟨h1, h2⟩ := hTzero hn
      rw [h1, h2, ← hT0]
      by_cases hbz : b.toNat = 0
      · have hp2 : 1 < p := by
          rcases hdom with hd | hd | hd
          · exact hd
          · omega
          · omega
        rw [if_pos hbz, hbz]
        simp [Nat.mod_eq_of_lt hp2]
      · rw [if_neg hbz]
        simp
    · rw [hTpos (Nat.pos_of_ne_zero hn), ← hT0]
      by_cases hbz : b.toNat = 0
      · rw [if_pos hbz, hbz]
        simp
      · rw [if_neg hbz]
        exact Nat.ModEq.mul_right _ (Nat.mod_modEq _ _)
  have hnowrap : dT ≤ b + 2 ^ 63 → b - kn.T_exp = dT := by
    intro hle
    rw [hTe2, toInt64_of_range (b - dT) (by omega) (by omega)]
    omega
  refine ⟨kn, dT, dW, hkn, hT, hW, hdT0, hdW0, hTval, hTe2, fun hle => ?_, fun hcol => ?_,
    fun hle hsmall hcol => ?_⟩
  · refine ⟨hnowrap hle, ?_⟩
    rw [hnowrap hle]
    exact hTval
  · rw [← hTval, hcol]
    exact hWval
  · have hW3 : kn.W_exp = dW := by
      rw [hWe2]
      exact toInt64_of_range dW (by omega) hsmall
    rw [hnowrap hle, hW3, ← hTval, hcol]
    exact hWval

/-- C19 (the tame walk at the modulus one). With the modulus `1` and `b = 0`, for every
`g`, `h` and every behaviour of the library: the tables the call builds are in the jump
relation, the tame start is `modexp(g, 0, 1) = 1` (the unreduced result of `modexp`),
and before the first iteration the variables are `T = 1`, `T_exp = 0`, while
`g ^ (b + (b - T_exp)) mod 1 = 0`: the position is not the power the claim states. -/
theorem C19_tame_start_modulus_one (env : Env) (g h : Nat) :
    modexp g (toUInt64 0) 1 = .ok 1 ∧
      (∃ jt et rs, built_tables env g 1 0 0 = .ok (jt, et, rs) ∧ jump_relation g 1 jt et) ∧
      kangaroos_after env g h 1 0 0 0 = .ok { T := 1, T_exp := 0, W := 0, W_exp := 0 } ∧
      (1 : Nat) ≠ g ^ ((0 : Int) + (0 - 0)).toNat % 1 := by
  have hT0 : modexp g (toUInt64 0) 1 = .ok 1 := rfl
  obtain ⟨jt, et, rs, htab⟩ := built_tables_total env g 1 0 0 (by decide) (by decide)
  have hrel := built_tables_relation env g 1 0 0 jt et rs (by decide) (by decide)
    (by decide) (by decide) htab
  have hW0 : umod h 1 = .ok 0 := by
    rw [umod_ok h 1 (by decide), Nat.mod_one]
  refine ⟨hT0, ⟨jt, et, rs, htab, hrel⟩, ?_, ?_⟩
  · rw [kangaroos_after_run env g h 1 0 0 0 1 0 jt et rs hT0 hW0 htab, walk_state_zero]
  · rw [Nat.mod_one]
    decide

/-! ## The instance of the demo -/

/-- A trail of `m + n` jumps is a trail of `n` jumps from the end of one of `m`. -/
theorem trail_add (σ : Nat → Nat) : ∀ (m n e : Nat),
    trail σ (m + n) e = trail σ n (trail σ m e) := by
  intro m
  induction m with
  | zero =>
    intro n e
    rw [Nat.zero_add]
    rfl
  | succ m ih =>
    intro n e
    rw [show m + 1 + n = (m + n) + 1 by omega]
    exact ih n (e + σ e)

/-- The last jump of a trail. -/
theorem trail_succ_last (σ : Nat → Nat) (n e : Nat) :
    trail σ (n + 1) e = trail σ n e + σ (trail σ n e) :=
  trail_add σ n 1 e

/-- With every jump of size one or two, `n` jumps cover between `n` and `2 * n`. -/
theorem trail_bounds (σ : Nat → Nat) (hσ : ∀ x, 1 ≤ σ x ∧ σ x ≤ 2) : ∀ (n e : Nat),
    e + n ≤ trail σ n e ∧ trail σ n e ≤ e + 2 * n := by
  intro n
  induction n with
  | zero =>
    intro e
    simp [trail]
  | succ n ih =>
    intro e
    rw [trail_succ_last]
    have h1 := ih e
    have h2 := hσ (trail σ n e)
    omega

/-- A trail moves up with every jump. -/
theorem trail_lt (σ : Nat → Nat) (hσ : ∀ x, 1 ≤ σ x ∧ σ x ≤ 2) (i j e : Nat) (hij : i < j) :
    trail σ i e < trail σ j e := by
  obtain ⟨d, hd⟩ : ∃ d, j = i + d := ⟨j - i, by omega⟩
  rw [hd, trail_add]
  have := (trail_bounds σ hσ d (trail σ i e)).1
  omega

/-- With every jump of size one or two, a trail visits one of any two neighbouring
exponents between its start and its end. -/
theorem trail_cover (σ : Nat → Nat) (hσ : ∀ x, 1 ≤ σ x ∧ σ x ≤ 2) (e : Nat) : ∀ (n x : Nat),
    e ≤ x → x < trail σ n e → ∃ i, i ≤ n ∧ (trail σ i e = x ∨ trail σ i e = x + 1) := by
  intro n
  induction n with
  | zero =>
    intro x h1 h2
    simp only [trail] at h2
    omega
  | succ n ih =>
    intro x h1 h2
    by_cases hlt : x < trail σ n e
    · obtain ⟨i, hi, hv⟩ := ih x h1 hlt
      exact ⟨i, by omega, hv⟩
    · rw [trail_succ_last] at h2
      have hs := hσ (trail σ n e)
      by_cases heq : trail σ n e = x
      · exact ⟨n, by omega, Or.inl heq⟩
      · refine ⟨n + 1, le_refl _, Or.inr ?_⟩
        rw [trail_succ_last]
        omega

/-- Two trails with the same jump sizes that are at the same exponent for the first
time after `k` jumps each have no exponent in common before. -/
theorem trail_disjoint (σ : Nat → Nat) (hσ : ∀ x, 1 ≤ σ x ∧ σ x ≤ 2) (k e1 e2 : Nat)
    (hk : trail σ k e1 = trail σ k e2)
    (hfirst : ∀ j, j < k → trail σ j e1 ≠ trail σ j e2) (i j : Nat) (hi : i ≤ k)
    (hj : j ≤ k) (hne : i < k ∨ j < k) : trail σ i e1 ≠ trail σ j e2 := by
  intro heq
  rcases Nat.lt_trichotomy i j with hij | hij | hij
  · have h1 : trail σ (i + (k - j)) e1 = trail σ k e2 := by
      rw [trail_add, heq, ← trail_add]
      congr 1
      omega
    have h2 := trail_lt σ hσ (i + (k - j)) k e1 (by omega)
    omega
  · subst hij
    exact hfirst i (by omega) heq
  · have h1 : trail σ (j + (k - i)) e2 = trail σ k e1 := by
      rw [trail_add, ← heq, ← trail_add]
      congr 1
      omega
    have h2 := trail_lt σ hσ (j + (k - i)) k e2 (by omega)
    omega

/-- On the exponents of the demo no pair of trails with jumps of size one or two, one
from `100` and one from `63`, is at `163` for the first time together: the tame trail
would have to use the even exponents `100, 102, …, 162` and overshoot. -/
theorem demo_trails_apart (σ : Nat → Nat) (hσ : ∀ x, 1 ≤ σ x ∧ σ x ≤ 2) (k : Nat)
    (hT : trail σ k 100 = 163) (hW : trail σ k 63 = 163)
    (hfirst : ∀ j, j < k → trail σ j 100 ≠ trail σ j 63) : False := by
  have hk50 : 50 ≤ k := by
    have := (trail_bounds σ hσ k 63).2
    omega
  have hdis := trail_disjoint σ hσ k 100 63 (by rw [hT, hW]) hfirst
  have heven : ∀ i, i ≤ 32 → trail σ i 100 = 100 + 2 * i := by
    intro i
    induction i with
    | zero =>
      intro _
      rfl
    | succ i ih =>
      intro hi
      have hx := ih (by omega)
      obtain ⟨j, hj, hv⟩ := trail_cover σ hσ 63 k (100 + 2 * i) (by omega) (by omega)
      have hs := hσ (trail σ i 100)
      have hnext := trail_succ_last σ i 100
      rcases hv with hv | hv
      · exact absurd (hx.trans hv.symm) (hdis i j (by omega) hj (Or.inl (by omega)))
      · have hne := hdis (i + 1) j (by omega) hj (Or.inl (by omega))
        rw [hv] at hne
        omega
  have h32 := heven 32 (le_refl _)
  have hmono := trail_lt σ hσ 32 k 100 (by omega)
  omega

/-- A value other than the sentinel leaves the loop at the first collision. -/
theorem walk_returns_first (g h p : Nat) (a b : Int) (jt : List Nat) (et : List Int) :
    ∀ (n : Nat) (k0 : Kangaroos) (r : Int),
      walk g h p a b jt et n k0.T k0.T_exp k0.W k0.W_exp = .ok r → r ≠ -1 →
      ∃ m km, m < n ∧ walk_state p jt et (m + 1) k0 = .ok km ∧ km.T = km.W ∧
        r = toInt64 (b - km.T_exp) ∧
        ∀ j kj, j < m → walk_state p jt et (j + 1) k0 = .ok kj → kj.T ≠ kj.W := by
  intro n
  induction n with
  | zero =>
    intro k0 r hr hne
    rw [walk] at hr
    simp only [Except.ok.injEq] at hr
    exact absurd hr.symm hne
  | succ n ih =>
    intro k0 r hr hne
    have hr0 := hr
    rw [walk_succ] at hr
    have hk0 : ({ T := k0.T, T_exp := k0.T_exp, W := k0.W, W_exp := k0.W_exp } : Kangaroos)
        = k0 := rfl
    rw [hk0] at hr
    obtain ⟨k1, h1, hr1⟩ := (bind_eq_ok _ _ _).mp hr
    by_cases hcol : k1.T = k1.W
    · have hst1 : walk_state p jt et (0 + 1) k0 = .ok k1 := by
        rw [walk_state_succ, h1, ok_bind, walk_state_zero]
      have hres := walk_first_collision g h p a b jt et (n + 1) 0 k0 k1 (by omega) hst1 hcol
        (fun j kj hj _ => absurd hj (by omega))
      rw [hr0] at hres
      refine ⟨0, k1, by omega, hst1, hcol, ?_, fun j kj hj _ => absurd hj (by omega)⟩
      unfold resolve at hres
      dsimp only at hres
      split at hres
      · obtain ⟨c, _, hr2⟩ := (bind_eq_ok _ _ _).mp hres.symm
        obtain ⟨hpv, _, hr3⟩ := (bind_eq_ok _ _ _).mp hr2
        split at hr3
        · simp only [Except.ok.injEq] at hr3
          exact hr3.symm
        · simp only [Except.ok.injEq] at hr3
          exact absurd hr3.symm hne
      · simp only [Except.ok.injEq] at hres
        exact absurd hres hne
    · rw [if_neg hcol] at hr1
      obtain ⟨m, km, hm, hst, hc, hrr, hfirst⟩ := ih k1 r hr1 hne
      refine ⟨m + 1, km, by omega, ?_, hc, hrr, ?_⟩
      · rw [walk_state_succ, h1, ok_bind]
        exact hst
      · intro j kj hj hkj
        rw [walk_state_succ, h1, ok_bind] at hkj
        cases j with
        | zero =>
          rw [walk_state_zero] at hkj
          simp only [Except.ok.injEq] at hkj
          rw [← hkj]
          exact hcol
        | succ j => exact hfirst j kj (by omega) hkj

/-- The loop bound is a `long long` value. -/
theorem loop_bound_of_lt (env : Env) (iv : Int) : loop_bound_of env iv < 2 ^ 63 := by
  unfold loop_bound_of
  dsimp only
  split
  · norm_num
  · unfold toInt64
    omega

/-- Under the jump relation a kangaroo that stands at a power of `g` moves along the
trail of its exponent: after `n` jumps from `g ^ e mod p` it stands at
`g ^ (trail σ n e) mod p` and has travelled `trail σ n e - e`, where the jump size `σ x`
at the exponent `x` is the step size of the partition of `g ^ x mod p`. -/
theorem trek_trail (g p : Nat) (jt : List Nat) (et : List Int) (hp0 : 0 < p) (hp : p < 2 ^ 64)
    (hrel : jump_relation g p jt et) : ∀ (n e : Nat),
    trek p jt et n (g ^ e % p) =
      .ok (g ^ trail (fun x => (et.getD (g ^ x % p % 32) 0).toNat) n e % p,
        (trail (fun x => (et.getD (g ^ x % p % 32) 0).toNat) n e : Int) - e) := by
  have hpne : p ≠ 0 := by omega
  intro n
  induction n with
  | zero =>
    intro e
    rw [trek_zero]
    simp [trail]
  | succ n ih =>
    intro e
    rw [trek_succ p jt et hpne hrel.1 hrel.2.1]
    obtain ⟨hs0, hjv⟩ := hrel.2.2 (g ^ e % p % 32) (Nat.mod_lt _ (by norm_num))
    have hx : g ^ e % p < 2 ^ 64 := lt_trans (Nat.mod_lt _ hp0) hp
    have hy : jt.getD (g ^ e % p % 32) 0 < 2 ^ 64 := by
      rw [hjv]
      exact lt_trans (Nat.mod_lt _ hp0) hp
    rw [wide_mul_mod _ _ p hp0 hp hx hy, hjv, ← Nat.mul_mod, ← pow_add, ih, ok_bind]
    simp only [trail]
    congr 2
    have : ((et.getD (g ^ e % p % 32) 0).toNat : Int) = et.getD (g ^ e % p % 32) 0 :=
      Int.toNat_of_nonneg hs0
    push_cast
    omega

/-- Among the exponents below `190` only `163` gives the power `2 ^ 163 mod 467`. -/
theorem demo_power_unique : ∀ e, e < 190 → 2 ^ e % 467 = 2 ^ 163 % 467 → e = 163 := by
  decide!

/-- On the instance of the demo the C solver never returns `63`. -/
theorem demo_never_found (env : Env) (s : KState) :
    returned (pollard_kangaroo env 2 (2 ^ 63 % 467) 467 20 100 s) ≠ some 63 := by
  intro hr
  have hp : (467 : Nat) ≠ 0 := by decide
  obtain ⟨jt, et, rs, htab⟩ := built_tables_total env 2 467 20 100 hp (by decide)
  obtain ⟨hjt, het, _⟩ := built_tables_spec env 2 467 20 100 jt et rs htab
  have hsteps := built_tables_steps env 2 467 20 100 jt et rs (by decide) (by decide) htab
  have hmj : max_jump_of (toInt64 (100 - 20)) = 2 := by decide
  rw [hmj] at hsteps
  have hrel := built_tables_relation env 2 467 20 100 jt et rs (by decide) (by decide)
    (by decide) (by decide) htab
  have hT0 : modexp 2 (toUInt64 100) 467 = .ok (2 ^ 100 % 467) :=
    eq_ok_of_toOption _ _ (by decide)
  have hW0 : umod (2 ^ 63 % 467) 467 = .ok (2 ^ 63 % 467) := by
    rw [umod_ok _ _ hp, Nat.mod_mod]
  rw [pollard_kangaroo_run env 2 (2 ^ 63 % 467) 467 20 100 s (by decide) (by decide)
    (2 ^ 100 % 467) (2 ^ 63 % 467) jt et rs hT0 hW0 htab] at hr
  have hwalk := eq_ok_of_toOption _ _ hr
  obtain ⟨m, km, hm, hst, hcol, hval, hfirst⟩ :=
    walk_returns_first 2 (2 ^ 63 % 467) 467 20 100 jt et _
      { T := 2 ^ 100 % 467, T_exp := 100, W := 2 ^ 63 % 467, W_exp := 0 } 63 hwalk (by decide)
  -- the jump size as a function of the exponent
  obtain ⟨σ, hσdef⟩ : ∃ σ : Nat → Nat, σ = fun x => (et.getD (2 ^ x % 467 % 32) 0).toNat :=
    ⟨_, rfl⟩
  have hσ : ∀ x, 1 ≤ σ x ∧ σ x ≤ 2 := by
    intro x
    have := hsteps (2 ^ x % 467 % 32) (Nat.mod_lt _ (by norm_num))
    rw [hσdef]
    dsimp only
    omega
  have htrail := trek_trail 2 467 jt et (by decide) (by decide) hrel
  rw [← hσdef] at htrail
  -- the state after any number of iterations, in terms of the two trails
  have hstate : ∀ (n : Nat) (kn : Kangaroos),
      walk_state 467 jt et n
        { T := 2 ^ 100 % 467, T_exp := 100, W := 2 ^ 63 % 467, W_exp := 0 } = .ok kn →
      kn.T = 2 ^ trail σ n 100 % 467 ∧ kn.W = 2 ^ trail σ n 63 % 467 ∧
        (0 < n → kn.T_exp = toInt64 (100 - ((trail σ n 100 : Int) - 100))) := by
    intro n kn hkn
    obtain ⟨dT, dW, hT, hW, hTe, _⟩ := walk_state_trek 467 jt et hp hjt het n _ kn hkn
    dsimp only at hT hW hTe
    rw [htrail n 100] at hT
    rw [htrail n 63] at hW
    simp only [Except.ok.injEq, Prod.mk.injEq] at hT hW
    refine ⟨hT.1.symm, hW.1.symm, fun hn => ?_⟩
    rw [hTe (Or.inl hn), ← hT.2]
    rfl
  obtain ⟨hkT, hkW, hkTe⟩ := hstate (m + 1) km hst
  have hTe := hkTe (by omega)
  have hbT := trail_bounds σ hσ (m + 1) 100
  have hbW := trail_bounds σ hσ (m + 1) 63
  have hL := loop_bound_of_lt env (toInt64 (100 - 20))
  -- the tame distance is the candidate `63`
  have hdist : trail σ (m + 1) 100 = 163 := by
    rw [hTe, toInt64_candidate] at hval
    generalize trail σ (m + 1) 100 = t at hval hbT
    unfold toInt64 at hval
    omega
  have hwild : trail σ (m + 1) 63 = 163 := by
    apply demo_power_unique _ (by omega)
    rw [← hkW, ← hcol, hkT, hdist]
  refine demo_trails_apart σ hσ (m + 1) hdist hwild (fun j hj heq => ?_)
  cases j with
  | zero =>
    simp only [trail] at heq
    omega
  | succ j =>
    obtain ⟨kj, hkj⟩ := walk_state_total 467 jt et hp hjt het (j + 1)
      { T := 2 ^ 100 % 467, T_exp := 100, W := 2 ^ 63 % 467, W_exp := 0 }
    obtain ⟨hjT, hjW, _⟩ := hstate (j + 1) kj hkj
    apply hfirst j kj (by omega) hkj
    rw [hjT, hjW, heq]

/-- C7 (the instance of the demo). With `p = 467`, `g = 2`, `a = 20`, `b = 100` and
`h = 2 ^ 63 mod 467`, for every stored state and every behaviour of the library, hence
for every jump table the generator can produce, both solvers return the sentinel `-1`;
they never return the exponent `63` of the scenario. -/
theorem C7_demo_never_found (env : Env) (s : KState) :
    returned (solve env 2 (2 ^ 63 % 467) 467 20 100 s) = some (-1) ∧
      returned (pollard_kangaroo env 2 (2 ^ 63 % 467) 467 20 100 s) = some (-1) := by
  have key : ∀ env1 : Env,
      returned (pollard_kangaroo env1 2 (2 ^ 63 % 467) 467 20 100 s) = some (-1) := by
    intro env1
    obtain ⟨r, hr⟩ := pollard_kangaroo_total env1 2 (2 ^ 63 % 467) 467 20 100 s
      (by decide) (by decide)
    rcases pollard_kangaroo_returned env1 2 (2 ^ 63 % 467) 467 20 100 s r hr with
      h1 | ⟨h1, h2, _, hv⟩
    · rw [hr, h1]
    · rw [demo_exponent_unique r h1 h2 hv] at hr
      exact absurd hr (demo_never_found env1 s)
  refine ⟨?_, key env⟩
  rw [(solve_matches env 2 (2 ^ 63 % 467) 467 20 100 s).1]
  exact key (cpp_view env)

end Kangaroo
